import Mathlib

/-!
Verification of the rsort import-sorting tool.

The model is a shallow embedding of `src/imports.rs` and of the pure
content-rewriting part of `process_file` in `src/main.rs`.  Text is modelled
as `List Char` (abbreviated `Str`); Rust strings are valid UTF-8, for which
byte-lexicographic order coincides with code-point order, so comparing
`Char` values is faithful.  Whitespace is modelled as the ASCII whitespace
characters recognised by `Char.isWhitespace`-style checks (space, tab,
carriage return, line feed); the Rust code uses Unicode whitespace, which
agrees on all ASCII inputs.  Lowercasing is per-character ASCII lowercasing,
which agrees with Rust `to_lowercase` on ASCII text.
-/

namespace Rsort

/-- Text as a list of characters. -/
abbrev Str := List Char

/-- Whitespace test (models `char::is_whitespace` / regex `\s` on ASCII). -/
def isWs (c : Char) : Bool := c = ' ' || c = '\t' || c = '\r' || c = '\n'

/-- Models Rust `str::trim_start`. -/
def trimStart (s : Str) : Str := s.dropWhile isWs

/-- Models Rust `str::trim_end`. -/
def trimEnd (s : Str) : Str := (s.reverse.dropWhile isWs).reverse

/-- Models Rust `str::trim`. -/
def trim (s : Str) : Str := trimEnd (trimStart s)

/-- Full split of a text at newline characters: `"a\n\nb"` gives
`["a", "", "b"]`, the empty text gives `[""]`. -/
def splitNl : Str → List Str
  | [] => [[]]
  | c :: cs =>
    if c = '\n' then [] :: splitNl cs
    else
      match splitNl cs with
      | [] => [[c]]
      | p :: ps => (c :: p) :: ps

/-- Remove one trailing carriage return, as Rust `lines()` does on a line
that was terminated by a newline. -/
def stripCr (l : Str) : Str := if l.getLast? = some '\r' then l.dropLast else l

/-- Models Rust `str::lines().collect()`: split at `'\n'`, drop the final
empty piece produced by a trailing newline, and strip one `'\r'` from each
newline-terminated line. -/
def rustLines (s : Str) : List Str :=
  match (splitNl s).getLast? with
  | some [] => (splitNl s).dropLast.map stripCr
  | some l => (splitNl s).dropLast.map stripCr ++ [l]
  | none => (splitNl s).dropLast.map stripCr

/-- Models Rust `[&str]::join("\n")`. -/
def joinNl : List Str → Str
  | [] => []
  | [l] => l
  | l :: l2 :: ls => l ++ '\n' :: joinNl (l2 :: ls)

/-- The characters of the keyword `import`. -/
def litImport : Str := "import".toList

/-- The characters of the keyword `from`. -/
def litFrom : Str := "from".toList

/-- The characters of the future-compatibility marker `__future__`. -/
def litFuture : Str := "__future__".toList

/-- Consume an exact literal at the front of the text. -/
def afterLit (lit r : Str) : Option Str :=
  if lit.isPrefixOf r then some (r.drop lit.length) else none

/-- Consume `\s+` (at least one whitespace character, maximal run).  Because
`\s` and `\S` are complementary character classes, the regex engine's
backtracking is equivalent to maximal-munch here. -/
def afterWsRun : Str → Option Str
  | [] => none
  | c :: cs => if isWs c then some (cs.dropWhile isWs) else none

/-- Consume `\S+` (at least one non-whitespace character, maximal run). -/
def afterNonWsRun : Str → Option Str
  | [] => none
  | c :: cs => if isWs c then none else some (cs.dropWhile (fun d => !isWs d))

/-- Match of the regex alternative `^import\s+\S+`. -/
def matchImportStmt (r : Str) : Bool :=
  ((afterLit litImport r).bind (fun r1 =>
    (afterWsRun r1).bind afterNonWsRun)).isSome

/-- Match of the regex alternative `^from\s+\S+\s+import\s+\S+`. -/
def matchFromStmt (r : Str) : Bool :=
  ((afterLit litFrom r).bind (fun r1 =>
    (afterWsRun r1).bind (fun r2 =>
      (afterNonWsRun r2).bind (fun r3 =>
        (afterWsRun r3).bind (fun r4 =>
          (afterLit litImport r4).bind (fun r5 =>
            (afterWsRun r5).bind afterNonWsRun)))))).isSome

/-- Models `import_re.is_match(trimmed)` with
`import_re = ^(from\s+\S+\s+import\s+\S+|import\s+\S+)`. -/
def isImportLine (t : Str) : Bool := matchFromStmt t || matchImportStmt t

/-- Models the Rust struct `ImportBlock`. -/
structure ImportBlock where
  imports : List Str
  start_line : Nat
  end_line : Nat
deriving Repr, DecidableEq

/-- The scanning loop of `find_import_blocks`, with the current line index
and the optional open block as explicit state. -/
def fibAux : List Str → Nat → Option ImportBlock → List ImportBlock
  | [], _, none => []
  | [], _, some b => [b]
  | l :: ls, i, cur =>
    let t := trim l
    if isImportLine t then
      match cur with
      | some b => fibAux ls (i + 1) (some ⟨b.imports ++ [t], b.start_line, i⟩)
      | none => fibAux ls (i + 1) (some ⟨[t], i, i⟩)
    else if t = [] then
      fibAux ls (i + 1) cur
    else
      match cur with
      | some b => b :: fibAux ls (i + 1) none
      | none => fibAux ls (i + 1) none

/-- Models `find_import_blocks` from `src/imports.rs`. -/
def find_import_blocks (lines : List Str) : List ImportBlock :=
  fibAux lines 0 none

/-- Models the Rust enum `ImportGroup`. -/
inductive ImportGroup where
  | Future
  | StandardLib
  | ThirdParty
  | LocalLib
deriving Repr, DecidableEq

/-- Discriminant of `ImportGroup`, fixing the derived `Ord` order
`Future < StandardLib < ThirdParty < LocalLib`. -/
def gToNat : ImportGroup → Nat
  | .Future => 0
  | .StandardLib => 1
  | .ThirdParty => 2
  | .LocalLib => 3

/-- Models the derived `Ord::cmp` on `ImportGroup`. -/
def cmpGroup (a b : ImportGroup) : Ordering :=
  if gToNat a < gToNat b then .lt
  else if gToNat a = gToNat b then .eq
  else .gt

/-- Models the Rust struct `GroupedImport`. -/
structure GroupedImport where
  group : ImportGroup
  line : Str
deriving Repr, DecidableEq

/-- The hard-coded standard-library module list of
`determine_import_group`. -/
def stdlib_modules : List Str :=
  ["os", "sys", "time", "datetime", "collections", "random",
   "math", "json", "re", "pathlib", "typing"].map String.toList

/-- Substring test, models Rust `str::contains(&str)`. -/
def containsSub (pat s : Str) : Bool :=
  (List.range (s.length + 1)).any (fun i => pat.isPrefixOf (s.drop i))

/-- Models Rust `str::split_whitespace().collect()`: tokens are the maximal
non-whitespace runs. -/
def splitWsTokens (s : Str) : List Str :=
  (s.foldr (fun c acc =>
    if isWs c then [] :: acc
    else
      match acc with
      | t :: ts => (c :: t) :: ts
      | [] => [[c]]) [[]]).filter (fun t => t ≠ [])

/-- Models `split_whitespace().nth(n).unwrap_or("")`. -/
def nthToken (s : Str) (n : Nat) : Str := (splitWsTokens s).getD n []

/-- Models `determine_import_group` from `src/imports.rs`, including the
conditional with two identical branches that extracts the module token. -/
def determine_import_group (imp : Str) : ImportGroup :=
  if containsSub litFuture imp then .Future
  else if ("from .".toList.isPrefixOf imp) || ("from ..".toList.isPrefixOf imp) then
    .LocalLib
  else
    let module := if ("from ".toList.isPrefixOf imp) then nthToken imp 1 else nthToken imp 1
    if stdlib_modules.contains (module.takeWhile (fun c => c ≠ '.')) then .StandardLib
    else .ThirdParty

/-- Three-way comparison of naturals, models `Ord::cmp` on integers. -/
def natCmp (m n : Nat) : Ordering :=
  if m < n then .lt else if m = n then .eq else .gt

/-- Comparison of characters by code point; on valid UTF-8 this agrees with
Rust's byte-wise string order. -/
def charCmp (a b : Char) : Ordering := natCmp a.val.toNat b.val.toNat

/-- Lexicographic comparison of texts, models Rust `Ord` on `String`. -/
def lexCmp : Str → Str → Ordering
  | [], [] => .eq
  | [], _ :: _ => .lt
  | _ :: _, [] => .gt
  | a :: ta, b :: tb =>
    match charCmp a b with
    | .eq => lexCmp ta tb
    | o => o

/-- Per-character lowercasing, models Rust `to_lowercase` on ASCII text. -/
def lowerStr (s : Str) : Str := s.map Char.toLower

/-- The comparison closure passed to `sort_by` in `group_and_sort_imports`. -/
def cmpGI (a b : GroupedImport) : Ordering :=
  match cmpGroup a.group b.group with
  | .eq =>
    if litImport.isPrefixOf a.line && litFrom.isPrefixOf b.line then .lt
    else if litFrom.isPrefixOf a.line && litImport.isPrefixOf b.line then .gt
    else lexCmp (lowerStr a.line) (lowerStr b.line)
  | o => o

/-- Stable insertion of one element: the new element goes after every
element that compares strictly below it and before the first element that
does not. -/
def insertCmp (cmp : α → α → Ordering) (x : α) : List α → List α
  | [] => [x]
  | y :: ys => if cmp x y = .gt then y :: insertCmp cmp x ys else x :: y :: ys

/-- Stable sort by a comparator.  Rust `sort_by` is a stable sort; for a
comparator that is a total order that contract determines the result
uniquely, and stable insertion sort realises it. -/
def sortBy (cmp : α → α → Ordering) : List α → List α
  | [] => []
  | x :: xs => insertCmp cmp x (sortBy cmp xs)

/-- Models `group_and_sort_imports` from `src/imports.rs`. -/
def group_and_sort_imports (imports : List Str) : List GroupedImport :=
  sortBy cmpGI (imports.map (fun imp => ⟨determine_import_group imp, imp⟩))

/-- The emission loop of `process_file` for one sorted block: each import
line is followed by a newline, and one extra newline is inserted whenever
the group changes from a previously emitted group. -/
def renderAux : Option ImportGroup → List GroupedImport → Str
  | _, [] => []
  | cur, g :: gs =>
    (if cur = some g.group then [] else if cur = none then [] else ['\n']) ++
      g.line ++ ['\n'] ++ renderAux (some g.group) gs

/-- One iteration of the block loop of `process_file`: append the trimmed
preceding segment (followed by a blank separator when non-empty), the
grouped and sorted imports, and two newline characters; advance the read
cursor past the block. -/
def stepBlock (lines : List Str) (st : Str × Nat) (b : ImportBlock) : Str × Nat :=
  let pre := trimEnd (joinNl ((lines.drop st.2).take (b.start_line - st.2)))
  let acc1 := if pre = [] then st.1 else st.1 ++ pre ++ ['\n', '\n']
  let acc2 := acc1 ++ renderAux none (group_and_sort_imports b.imports) ++ ['\n', '\n']
  (acc2, b.end_line + 1)

/-- The pure content transform of `process_file` in `src/main.rs`, acting on
the file's line list: run the block loop over the detected blocks, then
emit the remaining content with leading whitespace stripped. -/
def process_file_content_lines (lines : List Str) : Str :=
  let fin := (find_import_blocks lines).foldl (stepBlock lines) ([], 0)
  if fin.2 < lines.length then
    let remaining := trimStart (joinNl (lines.drop fin.2))
    if remaining = [] then fin.1 else fin.1 ++ remaining
  else fin.1

/-- The file-content transform of `process_file`: read the content as lines
and rebuild it.  The file is rewritten exactly when the result differs from
the original content. -/
def process_file_content (content : String) : String :=
  String.mk (process_file_content_lines (rustLines content.data))

/-! Statement-support definitions. -/

/-- The keyword class of an import line: `0` for a line starting with the
characters `import`, `1` otherwise (for lines matching the import pattern,
`1` means it starts with `from`). -/
def kwClass (l : Str) : Nat := if litImport.isPrefixOf l then 0 else 1

/-- Lexicographic comparison of the sort key
`(category, keyword class, lowercased line)`. -/
def keyCmp (a b : GroupedImport) : Ordering :=
  (cmpGroup a.group b.group).then
    ((natCmp (kwClass a.line) (kwClass b.line)).then
      (lexCmp (lowerStr a.line) (lowerStr b.line)))

/-- One block of the rewritten output: the trimmed preceding segment and the
raw import lines of the block. -/
structure Seg where
  pre : Str
  imps : List Str
deriving Repr, DecidableEq

/-- The text emitted for one block: the preceding segment followed by one
fully blank separator line when non-empty, then the grouped and
sorted imports, then two newline characters. -/
def segText (s : Seg) : Str :=
  (if s.pre = [] then [] else s.pre ++ ['\n', '\n']) ++
    renderAux none (group_and_sort_imports s.imps) ++ ['\n', '\n']

/-- The per-block segments of the rewrite together with the final read
cursor, mirroring the block loop of `process_file`. -/
def segsOfAux (lines : List Str) : Nat → List ImportBlock → List Seg × Nat
  | lastEnd, [] => ([], lastEnd)
  | lastEnd, b :: bs =>
    let pre := trimEnd (joinNl ((lines.drop lastEnd).take (b.start_line - lastEnd)))
    let r := segsOfAux lines (b.end_line + 1) bs
    (⟨pre, b.imports⟩ :: r.1, r.2)

/-- Segments of a whole file. -/
def segsOf (lines : List Str) : List Seg × Nat :=
  segsOfAux lines 0 (find_import_blocks lines)

/-- The remaining content after the last block, with leading whitespace
stripped. -/
def tailOf (lines : List Str) (lastEnd : Nat) : Str :=
  if lastEnd < lines.length then trimStart (joinNl (lines.drop lastEnd)) else []

/-- Chunk a sorted import list into maximal runs of equal category, keeping
the category label and the line texts of each run. -/
def chunkBy : List GroupedImport → List (ImportGroup × List Str)
  | [] => []
  | x :: xs =>
    match chunkBy xs with
    | [] => [(x.group, [x.line])]
    | (g, ls) :: rest =>
      if x.group = g then (g, x.line :: ls) :: rest
      else (x.group, [x.line]) :: (g, ls) :: rest

/-- A text with no embedded newline character (a single line). -/
def nlFree (l : Str) : Bool := l.all (fun c => c != '\n')

/-- Join a list of line groups with exactly one blank line between two
adjacent groups. -/
def interBlank : List (List Str) → List Str
  | [] => []
  | [r] => r
  | r :: r2 :: rs => r ++ [] :: interBlank (r2 :: rs)

/-- A non-blank, non-import separator line strictly between two blocks. -/
def sepBetween (lines : List Str) (b bp : ImportBlock) : Prop :=
  ∃ j, b.end_line < j ∧ j < bp.start_line ∧ j < lines.length ∧
    trim (lines.getD j []) ≠ [] ∧ isImportLine (trim (lines.getD j [])) = false

/-- The block-extraction invariant the specification states for one
`ImportBlock`: the span is well-formed, both endpoints are import lines,
and every index in the span holds either an import line collected into the
block or a blank line (which, the endpoints being imports, lies strictly
between two import lines of the block). -/
def GoodBlock (lines : List Str) (b : ImportBlock) : Prop :=
  b.start_line ≤ b.end_line ∧
  isImportLine (trim (lines.getD b.start_line [])) = true ∧
  isImportLine (trim (lines.getD b.end_line [])) = true ∧
  (∀ j, b.start_line ≤ j → j ≤ b.end_line →
    (trim (lines.getD j []) ∈ b.imports ∧ isImportLine (trim (lines.getD j [])) = true) ∨
      trim (lines.getD j []) = []) ∧
  (∀ imp ∈ b.imports, isImportLine imp = true)

/-- The classification rule as the specification words it: a line containing
the future marker is `Future`; otherwise a line beginning with the relative
marker `from .` (which subsumes `from ..`) is `LocalLib`; otherwise the
second whitespace-separated token, truncated at its first dot, decides
between `StandardLib` (member of the fixed list) and `ThirdParty`. -/
def spec_classify (line : Str) : ImportGroup :=
  if containsSub litFuture line then .Future
  else if "from .".toList.isPrefixOf line then .LocalLib
  else if stdlib_modules.contains ((nthToken line 1).takeWhile (fun c => c ≠ '.')) then
    .StandardLib
  else .ThirdParty

/-- Loop invariant of the block scanner for the open block: a well-formed
span strictly before the cursor, import lines at both endpoints, every index
of the span an import collected into the block or a blank, only blanks
between the span's end and the cursor, and all collected lines matching
the import pattern. -/
def CurOk (lines : List Str) (i : Nat) (b : ImportBlock) : Prop :=
  b.start_line ≤ b.end_line ∧ b.end_line < i ∧
  isImportLine (trim (lines.getD b.start_line [])) = true ∧
  isImportLine (trim (lines.getD b.end_line [])) = true ∧
  (∀ j, b.start_line ≤ j → j ≤ b.end_line →
    (trim (lines.getD j []) ∈ b.imports ∧ isImportLine (trim (lines.getD j [])) = true) ∨
      trim (lines.getD j []) = []) ∧
  (∀ j, b.end_line < j → j < i → trim (lines.getD j []) = []) ∧
  (∀ imp ∈ b.imports, isImportLine imp = true)

/-! General lemmas about the stable sort. -/

set_option maxRecDepth 10000

theorem insertCmp_perm (cmp : α → α → Ordering) (x : α) (l : List α) :
    List.Perm (insertCmp cmp x l) (x :: l) := by
  induction l with
  | nil => simp [insertCmp]
  | cons y ys ih =>
    by_cases hxy : cmp x y = .gt
    · simp only [insertCmp, hxy, if_pos rfl]
      exact (ih.cons y).trans (List.Perm.swap x y ys)
    · simp [insertCmp, hxy]

theorem mem_insertCmp {cmp : α → α → Ordering} {x z : α} {l : List α}
    (h : z ∈ insertCmp cmp x l) : z = x ∨ z ∈ l :=
  List.mem_cons.mp ((insertCmp_perm cmp x l).mem_iff.mp h)

theorem sortBy_perm (cmp : α → α → Ordering) (l : List α) :
    List.Perm (sortBy cmp l) l := by
  induction l with
  | nil => simp [sortBy]
  | cons x xs ih => exact (insertCmp_perm cmp x (sortBy cmp xs)).trans (ih.cons x)

theorem mem_sortBy {cmp : α → α → Ordering} {l : List α} {x : α} :
    x ∈ sortBy cmp l ↔ x ∈ l :=
  (sortBy_perm cmp l).mem_iff

theorem insertCmp_pairwise {cmp : α → α → Ordering} {x : α} {l : List α}
    (hsw : ∀ a b, cmp a b = (cmp b a).swap)
    (htr : ∀ a b c, a ∈ x :: l → b ∈ x :: l → c ∈ x :: l →
      cmp a b ≠ .gt → cmp b c ≠ .gt → cmp a c ≠ .gt)
    (hp : l.Pairwise (fun a b => cmp a b ≠ .gt)) :
    (insertCmp cmp x l).Pairwise (fun a b => cmp a b ≠ .gt) := by
  induction l with
  | nil => simp [insertCmp]
  | cons y ys ih =>
    rcases List.pairwise_cons.mp hp with ⟨hy, hys⟩
    by_cases hxy : cmp x y = .gt
    · simp only [insertCmp, hxy, if_pos rfl]
      refine List.pairwise_cons.mpr ⟨?_, ?_⟩
      · intro z hz
        rcases mem_insertCmp hz with h | h
        · subst h
          rw [hsw y z, hxy]
          decide
        · exact hy z h
      · refine ih ?_ hys
        intro a b c ha hb hc hab hbc
        have lift : ∀ z, z ∈ x :: ys → z ∈ x :: y :: ys := by
          intro z hz
          rcases List.mem_cons.mp hz with h | h
          · simp [h]
          · simp [h]
        exact htr a b c (lift a ha) (lift b hb) (lift c hc) hab hbc
    · simp only [insertCmp, if_neg hxy]
      refine List.pairwise_cons.mpr ⟨?_, hp⟩
      intro z hz
      rcases List.mem_cons.mp hz with h | h
      · subst h; exact hxy
      · exact htr x y z (List.mem_cons_self _ _)
          (List.mem_cons_of_mem _ (List.mem_cons_self _ _))
          (List.mem_cons_of_mem _ (List.mem_cons_of_mem _ h)) hxy (hy z h)

theorem sortBy_pairwise {cmp : α → α → Ordering} {l : List α}
    (hsw : ∀ a b, cmp a b = (cmp b a).swap)
    (htr : ∀ a b c, a ∈ l → b ∈ l → c ∈ l →
      cmp a b ≠ .gt → cmp b c ≠ .gt → cmp a c ≠ .gt) :
    (sortBy cmp l).Pairwise (fun a b => cmp a b ≠ .gt) := by
  induction l with
  | nil => simp [sortBy]
  | cons x xs ih =>
    refine insertCmp_pairwise hsw ?_ ?_
    · intro a b c ha hb hc
      have mem : ∀ z, z ∈ x :: sortBy cmp xs → z ∈ x :: xs := by
        intro z hz
        rcases List.mem_cons.mp hz with h | h
        · simp [h]
        · exact List.mem_cons_of_mem _ (mem_sortBy.mp h)
      exact htr a b c (mem a ha) (mem b hb) (mem c hc)
    · refine ih ?_
      intro a b c ha hb hc
      exact htr a b c (List.mem_cons_of_mem _ ha) (List.mem_cons_of_mem _ hb)
        (List.mem_cons_of_mem _ hc)

/-! Lemmas about the comparators. -/

theorem natCmp_cases (m n : Nat) :
    (natCmp m n = .lt ∧ m < n) ∨ (natCmp m n = .eq ∧ m = n) ∨
      (natCmp m n = .gt ∧ n < m) := by
  unfold natCmp
  rcases Nat.lt_trichotomy m n with h | h | h
  · exact Or.inl ⟨by rw [if_pos h], h⟩
  · exact Or.inr (Or.inl ⟨by rw [if_neg (by omega), if_pos h], h⟩)
  · exact Or.inr (Or.inr ⟨by rw [if_neg (by omega), if_neg (by omega)], h⟩)

theorem natCmp_lt_iff {m n : Nat} : natCmp m n = .lt ↔ m < n := by
  rcases natCmp_cases m n with ⟨h1, h2⟩ | ⟨h1, h2⟩ | ⟨h1, h2⟩ <;> rw [h1] <;>
    simp <;> omega

theorem natCmp_eq_iff {m n : Nat} : natCmp m n = .eq ↔ m = n := by
  rcases natCmp_cases m n with ⟨h1, h2⟩ | ⟨h1, h2⟩ | ⟨h1, h2⟩ <;> rw [h1] <;>
    simp <;> omega

theorem natCmp_gt_iff {m n : Nat} : natCmp m n = .gt ↔ n < m := by
  rcases natCmp_cases m n with ⟨h1, h2⟩ | ⟨h1, h2⟩ | ⟨h1, h2⟩ <;> rw [h1] <;>
    simp <;> omega

theorem ne_gt_cases {o : Ordering} (h : o ≠ .gt) : o = .lt ∨ o = .eq := by
  cases o <;> simp_all

theorem charCmp_self (a : Char) : charCmp a a = .eq := natCmp_eq_iff.mpr rfl

theorem lexCmp_self : ∀ x : Str, lexCmp x x = .eq
  | [] => rfl
  | a :: ta => by simp [lexCmp, charCmp_self, lexCmp_self ta]

theorem lexCmp_swap : ∀ x y : Str, lexCmp x y = (lexCmp y x).swap
  | [], [] => rfl
  | [], _ :: _ => rfl
  | _ :: _, [] => rfl
  | a :: ta, b :: tb => by
    rcases natCmp_cases a.val.toNat b.val.toNat with ⟨h1, h2⟩ | ⟨h1, h2⟩ | ⟨h1, h2⟩
    · have hab : charCmp a b = .lt := h1
      have hba : charCmp b a = .gt := natCmp_gt_iff.mpr h2
      simp [lexCmp, hab, hba, Ordering.swap]
    · have hab : charCmp a b = .eq := h1
      have hba : charCmp b a = .eq := natCmp_eq_iff.mpr h2.symm
      simp [lexCmp, hab, hba, lexCmp_swap ta tb]
    · have hab : charCmp a b = .gt := h1
      have hba : charCmp b a = .lt := natCmp_lt_iff.mpr h2
      simp [lexCmp, hab, hba, Ordering.swap]

theorem lexCmp_eq_iff : ∀ x y : Str, lexCmp x y = .eq ↔ x = y
  | [], [] => by simp [lexCmp]
  | [], _ :: _ => by simp [lexCmp]
  | _ :: _, [] => by simp [lexCmp]
  | a :: ta, b :: tb => by
    rcases natCmp_cases a.val.toNat b.val.toNat with ⟨h1, h2⟩ | ⟨h1, h2⟩ | ⟨h1, h2⟩
    · have hab : charCmp a b = .lt := h1
      have hne : a ≠ b := by intro e; rw [e] at h2; omega
      simp [lexCmp, hab, hne]
    · have hea : a = b := Char.ext_iff.mpr (UInt32.ext h2)
      subst hea
      simp [lexCmp, charCmp_self, lexCmp_eq_iff ta tb]
    · have hab : charCmp a b = .gt := h1
      have hne : a ≠ b := by intro e; rw [e] at h2; omega
      simp [lexCmp, hab, hne]

theorem lexCmp_trans_lt : ∀ x y z : Str,
    lexCmp x y = .lt → lexCmp y z = .lt → lexCmp x z = .lt
  | [], [], z => by intro h1 _; simp [lexCmp] at h1
  | [], _ :: _, [] => by intro _ h2; simp [lexCmp] at h2
  | [], _ :: _, _ :: _ => by intro _ _; simp [lexCmp]
  | _ :: _, [], _ => by intro h1 _; simp [lexCmp] at h1
  | _ :: _, _ :: _, [] => by intro _ h2; simp [lexCmp] at h2
  | a :: ta, b :: tb, c :: tc => by
    intro h1 h2
    rcases natCmp_cases a.val.toNat b.val.toNat with ⟨e1, d1⟩ | ⟨e1, d1⟩ | ⟨e1, d1⟩ <;>
      rcases natCmp_cases b.val.toNat c.val.toNat with ⟨e2, d2⟩ | ⟨e2, d2⟩ | ⟨e2, d2⟩ <;>
      have f1 : charCmp a b = _ := e1 <;> have f2 : charCmp b c = _ := e2 <;>
      simp only [lexCmp, f1, f2] at h1 h2 ⊢
    · have : charCmp a c = .lt := natCmp_lt_iff.mpr (by omega)
      simp [this]
    · have : charCmp a c = .lt := natCmp_lt_iff.mpr (by omega)
      simp [this]
    · exact absurd h2 (by simp)
    · have : charCmp a c = .lt := natCmp_lt_iff.mpr (by omega)
      simp [this]
    · have hac : charCmp a c = .eq := natCmp_eq_iff.mpr (by omega)
      simp only [hac]
      exact lexCmp_trans_lt ta tb tc h1 h2
    · exact absurd h2 (by simp)
    · exact absurd h1 (by simp)
    · exact absurd h1 (by simp)
    · exact absurd h1 (by simp)

theorem lexCmp_le_trans {x y z : Str}
    (h1 : lexCmp x y ≠ .gt) (h2 : lexCmp y z ≠ .gt) : lexCmp x z ≠ .gt := by
  rcases ne_gt_cases h1 with e1 | e1 <;> rcases ne_gt_cases h2 with e2 | e2
  · rw [lexCmp_trans_lt x y z e1 e2]; simp
  · rw [← (lexCmp_eq_iff y z).mp e2, e1]; simp
  · rw [(lexCmp_eq_iff x y).mp e1, e2]; simp
  · rw [(lexCmp_eq_iff x y).mp e1, e2]; simp

theorem cmpGroup_swap : ∀ a b : ImportGroup, cmpGroup a b = (cmpGroup b a).swap := by
  intro a b; cases a <;> cases b <;> decide

theorem cmpGroup_eq_iff : ∀ a b : ImportGroup, (cmpGroup a b = .eq ↔ a = b) := by
  intro a b; cases a <;> cases b <;> decide

theorem cmpGroup_lt_trans : ∀ a b c : ImportGroup,
    cmpGroup a b = .lt → cmpGroup b c = .lt → cmpGroup a c = .lt := by
  intro a b c; cases a <;> cases b <;> cases c <;> decide

theorem cmpGroup_ne_gt_iff : ∀ a b : ImportGroup,
    (cmpGroup a b ≠ .gt ↔ gToNat a ≤ gToNat b) := by
  intro a b; cases a <;> cases b <;> decide

/-- The two keyword prefixes are mutually exclusive: no line starts with
both `import` and `from`. -/
theorem not_both_kw {l : Str} (h1 : litImport.isPrefixOf l = true)
    (h2 : litFrom.isPrefixOf l = true) : False := by
  have p1 := List.isPrefixOf_iff_prefix.mp h1
  have p2 := List.isPrefixOf_iff_prefix.mp h2
  rcases p1 with ⟨t1, e1⟩
  rcases p2 with ⟨t2, e2⟩
  rw [← e1] at e2
  have h := congrArg (fun s => s.headD ' ') e2
  simp [litImport, litFrom] at h

theorem afterLit_isPrefixOf {lit r s : Str} (h : afterLit lit r = some s) :
    lit.isPrefixOf r = true := by
  unfold afterLit at h
  by_cases hp : lit.isPrefixOf r = true
  · exact hp
  · rw [if_neg hp] at h; exact absurd h (by simp)

/-- A line matched by the import regex starts with `import` or with
`from`. -/
theorem isImportLine_kw {l : Str} (h : isImportLine l = true) :
    litImport.isPrefixOf l = true ∨ litFrom.isPrefixOf l = true := by
  unfold isImportLine at h
  rcases Bool.or_eq_true _ _ |>.mp h with h | h
  · right
    unfold matchFromStmt at h
    cases ha : afterLit litFrom l with
    | none => rw [ha] at h; simp at h
    | some r1 => exact afterLit_isPrefixOf ha
  · left
    unfold matchImportStmt at h
    cases ha : afterLit litImport l with
    | none => rw [ha] at h; simp at h
    | some r1 => exact afterLit_isPrefixOf ha

/-- On lines matching the import pattern, the `sort_by` closure computes
exactly the lexicographic comparison of the key
`(category, keyword class, lowercased line)`. -/
theorem cmpGI_eq_keyCmp {a b : GroupedImport}
    (ha : isImportLine a.line = true) (hb : isImportLine b.line = true) :
    cmpGI a b = keyCmp a b := by
  unfold cmpGI keyCmp
  cases hg : cmpGroup a.group b.group with
  | lt => simp [Ordering.then]
  | gt => simp [Ordering.then]
  | eq =>
    simp only [Ordering.then]
    rcases isImportLine_kw ha with ia | fa <;> rcases isImportLine_kw hb with ib | fb
    · have na : litFrom.isPrefixOf a.line = false := by
        by_contra hx
        exact not_both_kw ia (by revert hx; cases litFrom.isPrefixOf a.line <;> simp)
      have nb : litFrom.isPrefixOf b.line = false := by
        by_contra hx
        exact not_both_kw ib (by revert hx; cases litFrom.isPrefixOf b.line <;> simp)
      simp [ia, ib, na, nb, kwClass, natCmp]
    · have na : litFrom.isPrefixOf a.line = false := by
        by_contra hx
        exact not_both_kw ia (by revert hx; cases litFrom.isPrefixOf a.line <;> simp)
      have nb : litImport.isPrefixOf b.line = false := by
        by_contra hx
        exact not_both_kw (by revert hx; cases litImport.isPrefixOf b.line <;> simp) fb
      simp [ia, fb, na, nb, kwClass, natCmp]
    · have na : litImport.isPrefixOf a.line = false := by
        by_contra hx
        exact not_both_kw (by revert hx; cases litImport.isPrefixOf a.line <;> simp) fa
      have nb : litFrom.isPrefixOf b.line = false := by
        by_contra hx
        exact not_both_kw ib (by revert hx; cases litFrom.isPrefixOf b.line <;> simp)
      simp [fa, ib, na, nb, kwClass, natCmp]
    · have na : litImport.isPrefixOf a.line = false := by
        by_contra hx
        exact not_both_kw (by revert hx; cases litImport.isPrefixOf a.line <;> simp) fa
      have nb : litImport.isPrefixOf b.line = false := by
        by_contra hx
        exact not_both_kw (by revert hx; cases litImport.isPrefixOf b.line <;> simp) fb
      simp [fa, fb, na, nb, kwClass, natCmp]

theorem inner_if_swap (p q r s : Bool) (hpq : p = true → q = true → False)
    (hrs : r = true → s = true → False) (x y : Ordering) (hxy : x = y.swap) :
    (if p && s then Ordering.lt else if q && r then Ordering.gt else x) =
      (if r && q then Ordering.lt else if s && p then Ordering.gt else y).swap := by
  cases p <;> cases q <;> cases r <;> cases s <;> simp_all [Ordering.swap]

/-- The comparison closure is antisymmetric under `Ordering.swap`, for all
inputs. -/
theorem cmpGI_swap (a b : GroupedImport) : cmpGI a b = (cmpGI b a).swap := by
  unfold cmpGI
  rw [cmpGroup_swap a.group b.group]
  cases hg : cmpGroup b.group a.group with
  | lt => rfl
  | gt => rfl
  | eq =>
    exact inner_if_swap _ _ _ _ (fun h1 h2 => not_both_kw h1 h2)
      (fun h1 h2 => not_both_kw h1 h2) _ _ (lexCmp_swap _ _)

theorem then_ne_gt {o1 o2 : Ordering} :
    o1.then o2 ≠ .gt ↔ (o1 = .lt ∨ (o1 = .eq ∧ o2 ≠ .gt)) := by
  cases o1 <;> cases o2 <;> simp [Ordering.then]

theorem then_eq_eq {o1 o2 : Ordering} :
    o1.then o2 = .eq ↔ (o1 = .eq ∧ o2 = .eq) := by
  cases o1 <;> cases o2 <;> simp [Ordering.then]

theorem keyCmp_le_trans {a b c : GroupedImport}
    (h1 : keyCmp a b ≠ .gt) (h2 : keyCmp b c ≠ .gt) : keyCmp a c ≠ .gt := by
  unfold keyCmp at h1 h2 ⊢
  rw [then_ne_gt] at h1 h2 ⊢
  rcases h1 with h1 | ⟨h1, h1i⟩
  · rcases h2 with h2 | ⟨h2, _⟩
    · exact Or.inl (cmpGroup_lt_trans _ _ _ h1 h2)
    · have e := (cmpGroup_eq_iff _ _).mp h2
      exact Or.inl (by rw [← e]; exact h1)
  · have e1 := (cmpGroup_eq_iff _ _).mp h1
    rcases h2 with h2 | ⟨h2, h2i⟩
    · exact Or.inl (by rw [e1]; exact h2)
    · have e2 := (cmpGroup_eq_iff _ _).mp h2
      refine Or.inr ⟨by rw [e1, e2]; exact (cmpGroup_eq_iff _ _).mpr rfl, ?_⟩
      rw [then_ne_gt] at h1i h2i ⊢
      rcases h1i with h1i | ⟨h1i, h1l⟩
      · rcases h2i with h2i | ⟨h2i, _⟩
        · refine Or.inl (natCmp_lt_iff.mpr ?_)
          have d1 := natCmp_lt_iff.mp h1i
          have d2 := natCmp_lt_iff.mp h2i
          omega
        · have e := natCmp_eq_iff.mp h2i
          exact Or.inl (by rw [← e]; exact h1i)
      · have e := natCmp_eq_iff.mp h1i
        rcases h2i with h2i | ⟨h2i, h2l⟩
        · exact Or.inl (by rw [e]; exact h2i)
        · have e2i := natCmp_eq_iff.mp h2i
          exact Or.inr ⟨by rw [e, e2i]; exact natCmp_eq_iff.mpr rfl,
            lexCmp_le_trans h1l h2l⟩

theorem keyCmp_eq_iff {a b : GroupedImport} :
    keyCmp a b = .eq ↔
      (a.group = b.group ∧ kwClass a.line = kwClass b.line ∧
        lowerStr a.line = lowerStr b.line) := by
  unfold keyCmp
  rw [then_eq_eq, then_eq_eq, cmpGroup_eq_iff, natCmp_eq_iff, lexCmp_eq_iff]

theorem line_mem_of_mem_gasi {imports : List Str} {a : GroupedImport}
    (h : a ∈ group_and_sort_imports imports) : a.line ∈ imports := by
  rw [group_and_sort_imports, mem_sortBy] at h
  rcases List.mem_map.mp h with ⟨x, hx, e⟩
  rw [← e]
  exact hx

/-- The sorted block is pairwise non-decreasing under the comparison
closure, provided every line matches the import pattern. -/
theorem gasi_sorted {imports : List Str}
    (h : ∀ l ∈ imports, isImportLine l = true) :
    (group_and_sort_imports imports).Pairwise (fun a b => cmpGI a b ≠ .gt) := by
  rw [group_and_sort_imports]
  refine sortBy_pairwise cmpGI_swap ?_
  intro a b c ha hb hc hab hbc
  have la : isImportLine a.line = true := by
    rcases List.mem_map.mp ha with ⟨x, hx, e⟩; rw [← e]; exact h x hx
  have lb : isImportLine b.line = true := by
    rcases List.mem_map.mp hb with ⟨x, hx, e⟩; rw [← e]; exact h x hx
  have lc : isImportLine c.line = true := by
    rcases List.mem_map.mp hc with ⟨x, hx, e⟩; rw [← e]; exact h x hx
  rw [cmpGI_eq_keyCmp la lb] at hab
  rw [cmpGI_eq_keyCmp lb lc] at hbc
  rw [cmpGI_eq_keyCmp la lc]
  exact keyCmp_le_trans hab hbc

theorem filter_insertCmp {cmp : α → α → Ordering} (p : α → Bool) (x : α)
    (l : List α)
    (hcl : ∀ y ∈ l, p x = true → p y = true → cmp x y ≠ .gt) :
    (insertCmp cmp x l).filter p = (x :: l).filter p := by
  induction l with
  | nil => rfl
  | cons y ys ih =>
    by_cases hxy : cmp x y = .gt
    · have hnot : ¬(p x = true ∧ p y = true) := by
        rintro ⟨hpx, hpy⟩
        exact hcl y (List.mem_cons_self _ _) hpx hpy hxy
      have ih2 := ih (fun z hz hpx hpz => hcl z (List.mem_cons_of_mem _ hz) hpx hpz)
      simp only [insertCmp, hxy, if_pos rfl]
      by_cases hpx : p x = true <;> by_cases hpy : p y = true
      · exact absurd ⟨hpx, hpy⟩ hnot
      · rw [Bool.not_eq_true] at hpy
        simp [List.filter_cons, hpx, hpy] at ih2 ⊢
        exact ih2
      · rw [Bool.not_eq_true] at hpx
        simp [List.filter_cons, hpx, hpy] at ih2 ⊢
        exact ih2
      · rw [Bool.not_eq_true] at hpx hpy
        simp [List.filter_cons, hpx, hpy] at ih2 ⊢
        exact ih2
    · simp [insertCmp, hxy]

theorem filter_sortBy {cmp : α → α → Ordering} (p : α → Bool) (l : List α)
    (hcl : ∀ x ∈ l, ∀ y ∈ l, p x = true → p y = true → cmp x y ≠ .gt) :
    (sortBy cmp l).filter p = l.filter p := by
  induction l with
  | nil => rfl
  | cons x xs ih =>
    have step := filter_insertCmp p x (sortBy cmp xs) (fun y hy hpx hpy =>
      hcl x (List.mem_cons_self _ _) y (List.mem_cons_of_mem _ (mem_sortBy.mp hy))
        hpx hpy)
    rw [sortBy, step]
    have ih2 := ih (fun a ha b hb => hcl a (List.mem_cons_of_mem _ ha) b
      (List.mem_cons_of_mem _ hb))
    simp only [List.filter_cons, ih2]

/-! Claim theorems: concrete scenarios, and content preservation. -/

/-- C1.  The rewrite is not idempotent: on `"import a\nx=1\nimport b\n"`
the first pass inserts a blank separator line before `x=1`; on the second
pass those blank lines sit at the start of the segment preceding the second
block, a segment that is only trimmed at its end, so the second pass keeps
them and appends a fresh separator, growing the file by two newlines on
every run.  This contradicts the stated idempotence requirement and the
code's own change-detection design (the content-equality check is meant to
make a second run a no-op). -/
theorem c1_not_idempotent :
    process_file_content "import a\nx=1\nimport b\n" =
      "import a\n\n\nx=1\n\nimport b\n\n\n" ∧
    process_file_content "import a\n\n\nx=1\n\nimport b\n\n\n" =
      "import a\n\n\n\n\nx=1\n\nimport b\n\n\n" ∧
    process_file_content (process_file_content "import a\nx=1\nimport b\n") ≠
      process_file_content "import a\nx=1\nimport b\n" := by
  refine ⟨by decide, by decide, by decide⟩

/-- C4 counterexample.  On the scenario input the transform emits the
remaining content `print(1)` without a trailing newline (the remainder is
rebuilt by joining lines with a newline separator, which drops the final
line terminator), so the output differs from the claimed string, which ends
in a newline. -/
theorem c4_counterexample :
    process_file_content
        "import sys\nfrom __future__ import annotations\nimport numpy\n\nprint(1)\n" ≠
      "from __future__ import annotations\n\nimport sys\n\nimport numpy\n\n\nprint(1)\n" := by
  decide

/-- C4 amended.  Block extraction on the scenario input yields exactly one
block holding the three import lines with span 0..2, and the output is the
claimed string except that it lacks the final newline. -/
theorem c4_scenario :
    find_import_blocks (rustLines
        "import sys\nfrom __future__ import annotations\nimport numpy\n\nprint(1)\n".data) =
      [⟨["import sys".toList, "from __future__ import annotations".toList,
         "import numpy".toList], 0, 2⟩] ∧
    process_file_content
        "import sys\nfrom __future__ import annotations\nimport numpy\n\nprint(1)\n" =
      "from __future__ import annotations\n\nimport sys\n\nimport numpy\n\n\nprint(1)" := by
  refine ⟨by decide, by decide⟩

/-- C3 counterexample.  `"x=1\n"` contains no import line, yet the
transform returns `"x=1"`: the remainder is rebuilt by joining the lines
with newline separators, which drops the trailing newline, so the content
is not byte-identical and the file is backed up and rewritten. -/
theorem c3_counterexample :
    ((rustLines "x=1\n".data).all (fun l => !isImportLine (trim l))) = true ∧
    process_file_content "x=1\n" ≠ "x=1\n" := by
  refine ⟨by decide, by decide⟩

/-- C2 counterexample.  On `"import a\nx=1\n"` the processed block (the
single line `import a` at line 0) is followed in the output by a run of two
blank lines before the next non-blank content, not exactly one: the claimed
blank-line count after a block is wrong. -/
theorem c2_counterexample :
    process_file_content "import a\nx=1\n" = "import a\n\n\nx=1" ∧
    (((rustLines (process_file_content "import a\nx=1\n").data).drop 1).takeWhile
        (fun l => decide (l = []))).length ≠ 1 := by
  refine ⟨by decide, by decide⟩

/-- C5.  Content preservation: the sorted output of
`group_and_sort_imports` carries exactly the input lines as a multiset — a
permutation with no line added, removed, or textually altered. -/
theorem c5_content_preservation (imports : List Str) :
    List.Perm ((group_and_sort_imports imports).map GroupedImport.line) imports := by
  have e : (imports.map (fun imp => GroupedImport.mk (determine_import_group imp) imp)).map
      GroupedImport.line = imports := by
    induction imports with
    | nil => rfl
    | cons a t ih => simp [ih]
  have h := (sortBy_perm cmpGI
    (imports.map (fun imp => GroupedImport.mk (determine_import_group imp) imp))).map
      GroupedImport.line
  rw [e] at h
  exact h

/-- C6.  Category ordering: in the output of `group_and_sort_imports`, for
any pair of entries the earlier one's category is never strictly greater
than the later one's, under the fixed order
`Future < StandardLib < ThirdParty < LocalLib` (so strictly smaller
category always comes first). -/
theorem c6_category_ordering (imports : List Str)
    (h : ∀ l ∈ imports, isImportLine l = true) :
    (group_and_sort_imports imports).Pairwise
      (fun A B => gToNat A.group ≤ gToNat B.group) := by
  refine (gasi_sorted h).imp ?_
  intro a b hab
  refine (cmpGroup_ne_gt_iff _ _).mp ?_
  intro hg
  apply hab
  unfold cmpGI
  rw [hg]

theorem c6_category_ordering_witness :
    (∀ l ∈ ["import numpy".toList, "import sys".toList], isImportLine l = true) ∧
    (group_and_sort_imports ["import numpy".toList, "import sys".toList]).Pairwise
      (fun A B => gToNat A.group ≤ gToNat B.group) :=
  ⟨by decide, c6_category_ordering _ (by decide)⟩

/-- C7.  Within-category sort rule: in the sorted output, (1) a line in
keyword class `from` never precedes a line of the same category in keyword
class `import`; (2) two lines of the same category and the same keyword
class are in ascending case-insensitive order of the full line text; and
(3) the sort is stable: for any reference entry, the entries tied with it
under the comparison closure appear in the output exactly as they appear in
the classified input sequence, in input order. -/
theorem c7_within_category_sort (imports : List Str)
    (h : ∀ l ∈ imports, isImportLine l = true) :
    ((group_and_sort_imports imports).Pairwise (fun A B =>
      ¬(A.group = B.group ∧ litFrom.isPrefixOf A.line = true ∧
        litImport.isPrefixOf B.line = true))) ∧
    ((group_and_sort_imports imports).Pairwise (fun A B =>
      A.group = B.group → litImport.isPrefixOf A.line = litImport.isPrefixOf B.line →
        lexCmp (lowerStr A.line) (lowerStr B.line) ≠ .gt)) ∧
    (∀ a : GroupedImport, isImportLine a.line = true →
      (group_and_sort_imports imports).filter (fun b => decide (cmpGI a b = .eq)) =
        (imports.map (fun imp => GroupedImport.mk (determine_import_group imp) imp)).filter
          (fun b => decide (cmpGI a b = .eq))) := by
  have hmem : ∀ a ∈ group_and_sort_imports imports, isImportLine a.line = true :=
    fun a ha => h a.line (line_mem_of_mem_gasi ha)
  refine ⟨?_, ?_, ?_⟩
  · refine ((List.Pairwise.and_mem.mp (gasi_sorted h)).imp ?_)
    rintro a b ⟨ha, hb, hab⟩ ⟨hg, hf, hi⟩
    apply hab
    unfold cmpGI
    rw [(cmpGroup_eq_iff _ _).mpr hg]
    have na : litImport.isPrefixOf a.line = false := by
      by_contra hx
      exact not_both_kw (by revert hx; cases litImport.isPrefixOf a.line <;> simp) hf
    simp [na, hf, hi]
  · refine ((List.Pairwise.and_mem.mp (gasi_sorted h)).imp ?_)
    rintro a b ⟨ha, hb, hab⟩ hg hkw
    have la := hmem a ha
    have lb := hmem b hb
    rw [cmpGI_eq_keyCmp la lb] at hab
    unfold keyCmp at hab
    rw [then_ne_gt] at hab
    rcases hab with hab | ⟨_, hab⟩
    · rw [(cmpGroup_eq_iff _ _).mpr hg] at hab
      exact absurd hab (by simp)
    · rw [then_ne_gt] at hab
      have hkweq : kwClass a.line = kwClass b.line := by
        unfold kwClass
        rw [hkw]
      rcases hab with hab | ⟨_, hab⟩
      · rw [natCmp_eq_iff.mpr hkweq] at hab
        exact absurd hab (by simp)
      · exact hab
  · intro a hal
    rw [group_and_sort_imports]
    refine filter_sortBy _ _ ?_
    intro x hx y hy hpx hpy
    have lx : isImportLine x.line = true := by
      rcases List.mem_map.mp hx with ⟨u, hu, e⟩; rw [← e]; exact h u hu
    have ly : isImportLine y.line = true := by
      rcases List.mem_map.mp hy with ⟨u, hu, e⟩; rw [← e]; exact h u hu
    have ex : cmpGI a x = .eq := of_decide_eq_true hpx
    have ey : cmpGI a y = .eq := of_decide_eq_true hpy
    rw [cmpGI_eq_keyCmp hal lx, keyCmp_eq_iff] at ex
    rw [cmpGI_eq_keyCmp hal ly, keyCmp_eq_iff] at ey
    rw [cmpGI_eq_keyCmp lx ly]
    have : keyCmp x y = .eq := keyCmp_eq_iff.mpr
      ⟨ex.1 ▸ ey.1, ex.2.1 ▸ ey.2.1, ex.2.2 ▸ ey.2.2⟩
    rw [this]
    simp

theorem c7_within_category_sort_witness :
    (∀ l ∈ ["import b".toList, "from c import d".toList, "import B".toList],
      isImportLine l = true) ∧
    ((group_and_sort_imports
        ["import b".toList, "from c import d".toList, "import B".toList]).Pairwise
      (fun A B =>
        ¬(A.group = B.group ∧ litFrom.isPrefixOf A.line = true ∧
          litImport.isPrefixOf B.line = true))) ∧
    ((group_and_sort_imports
        ["import b".toList, "from c import d".toList, "import B".toList]).Pairwise
      (fun A B =>
        A.group = B.group → litImport.isPrefixOf A.line = litImport.isPrefixOf B.line →
          lexCmp (lowerStr A.line) (lowerStr B.line) ≠ .gt)) ∧
    (∀ a : GroupedImport, isImportLine a.line = true →
      (group_and_sort_imports
          ["import b".toList, "from c import d".toList, "import B".toList]).filter
          (fun b => decide (cmpGI a b = .eq)) =
        ((["import b".toList, "from c import d".toList, "import B".toList]).map
            (fun imp => GroupedImport.mk (determine_import_group imp) imp)).filter
          (fun b => decide (cmpGI a b = .eq))) := by
  refine ⟨by decide, ?_⟩
  exact c7_within_category_sort _ (by decide)

/-- C10.  On lines matching the import pattern the comparison closure of
`group_and_sort_imports` is lawful: it equals the lexicographic comparison
of the key `(category, keyword class, lowercased line)`, it is transitive,
and it returns `eq` exactly on key-equal entries (antisymmetry up to key
equality).  Sorting with it is therefore well-defined. -/
theorem c10_comparator_lawful :
    (∀ a b : GroupedImport, isImportLine a.line = true → isImportLine b.line = true →
      cmpGI a b = keyCmp a b) ∧
    (∀ a b c : GroupedImport, isImportLine a.line = true → isImportLine b.line = true →
      isImportLine c.line = true →
      cmpGI a b ≠ .gt → cmpGI b c ≠ .gt → cmpGI a c ≠ .gt) ∧
    (∀ a b : GroupedImport, isImportLine a.line = true → isImportLine b.line = true →
      (cmpGI a b = .eq ↔
        (a.group = b.group ∧ kwClass a.line = kwClass b.line ∧
          lowerStr a.line = lowerStr b.line))) := by
  refine ⟨fun a b ha hb => cmpGI_eq_keyCmp ha hb, ?_, ?_⟩
  · intro a b c ha hb hc hab hbc
    rw [cmpGI_eq_keyCmp ha hb] at hab
    rw [cmpGI_eq_keyCmp hb hc] at hbc
    rw [cmpGI_eq_keyCmp ha hc]
    exact keyCmp_le_trans hab hbc
  · intro a b ha hb
    rw [cmpGI_eq_keyCmp ha hb]
    exact keyCmp_eq_iff

theorem c10_comparator_lawful_witness :
    cmpGI ⟨.StandardLib, "import sys".toList⟩ ⟨.StandardLib, "from os import path".toList⟩ =
      keyCmp ⟨.StandardLib, "import sys".toList⟩
        ⟨.StandardLib, "from os import path".toList⟩ :=
  c10_comparator_lawful.1 _ _ (by decide) (by decide)

/-! Lemmas about the block scanner. -/

theorem fibAux_cons (l : Str) (ls : List Str) (i : Nat) (cur : Option ImportBlock) :
    fibAux (l :: ls) i cur =
      if isImportLine (trim l) then
        match cur with
        | some b => fibAux ls (i + 1) (some ⟨b.imports ++ [trim l], b.start_line, i⟩)
        | none => fibAux ls (i + 1) (some ⟨[trim l], i, i⟩)
      else if trim l = [] then fibAux ls (i + 1) cur
      else
        match cur with
        | some b => b :: fibAux ls (i + 1) none
        | none => fibAux ls (i + 1) none := rfl

theorem fibAux_import_some {l : Str} (h : isImportLine (trim l) = true)
    (ls : List Str) (i : Nat) (b : ImportBlock) :
    fibAux (l :: ls) i (some b) =
      fibAux ls (i + 1) (some ⟨b.imports ++ [trim l], b.start_line, i⟩) := by
  rw [fibAux_cons, if_pos h]

theorem fibAux_import_none {l : Str} (h : isImportLine (trim l) = true)
    (ls : List Str) (i : Nat) :
    fibAux (l :: ls) i none = fibAux ls (i + 1) (some ⟨[trim l], i, i⟩) := by
  rw [fibAux_cons, if_pos h]

theorem isImportLine_nil : isImportLine [] = false := by decide

theorem fibAux_blank {l : Str} (h : trim l = []) (ls : List Str) (i : Nat)
    (cur : Option ImportBlock) :
    fibAux (l :: ls) i cur = fibAux ls (i + 1) cur := by
  have hni : isImportLine (trim l) = false := by rw [h]; exact isImportLine_nil
  rw [fibAux_cons, if_neg (by simp [hni]), if_pos h]

theorem fibAux_close_some {l : Str} (h1 : isImportLine (trim l) = false)
    (h2 : trim l ≠ []) (ls : List Str) (i : Nat) (b : ImportBlock) :
    fibAux (l :: ls) i (some b) = b :: fibAux ls (i + 1) none := by
  rw [fibAux_cons, if_neg (by simp [h1]), if_neg h2]

theorem fibAux_close_none {l : Str} (h1 : isImportLine (trim l) = false)
    (h2 : trim l ≠ []) (ls : List Str) (i : Nat) :
    fibAux (l :: ls) i none = fibAux ls (i + 1) none := by
  rw [fibAux_cons, if_neg (by simp [h1]), if_neg h2]

theorem fibAux_no_import : ∀ (ls : List Str) (i : Nat),
    (∀ l ∈ ls, isImportLine (trim l) = false) →
    (∀ b : ImportBlock, fibAux ls i (some b) = [b]) ∧ fibAux ls i none = []
  | [], _, _ => ⟨fun _ => rfl, rfl⟩
  | l :: ls, i, h => by
    have hl : isImportLine (trim l) = false := h l (List.mem_cons_self _ _)
    have ih := fibAux_no_import ls (i + 1) (fun x hx => h x (List.mem_cons_of_mem _ hx))
    by_cases ht : trim l = []
    · exact ⟨fun b => by rw [fibAux_blank ht]; exact ih.1 b,
        by rw [fibAux_blank ht]; exact ih.2⟩
    · exact ⟨fun b => by rw [fibAux_close_some hl ht, ih.2],
        by rw [fibAux_close_none hl ht]; exact ih.2⟩

theorem fibAux_run_some : ∀ (r : List Str), r ≠ [] →
    (∀ l ∈ r, isImportLine (trim l) = true) →
    ∀ (ls : List Str) (i : Nat) (b : ImportBlock),
    fibAux (r ++ ls) i (some b) =
      fibAux ls (i + r.length)
        (some ⟨b.imports ++ r.map trim, b.start_line, i + r.length - 1⟩)
  | [], hne, _ => absurd rfl hne
  | l :: r, _, h => fun ls i b => by
    have hl : isImportLine (trim l) = true := h l (List.mem_cons_self _ _)
    rw [List.cons_append, fibAux_import_some hl]
    by_cases hr2 : r = []
    · subst hr2; simp
    · rw [fibAux_run_some r hr2 (fun x hx => h x (List.mem_cons_of_mem _ hx)) ls (i + 1)]
      have hlen : 0 < r.length := List.length_pos.mpr hr2
      have e1 : i + 1 + r.length = i + (l :: r).length := by
        simp only [List.length_cons]; omega
      rw [e1]
      simp

theorem fibAux_run_none (r : List Str) (hne : r ≠ [])
    (h : ∀ l ∈ r, isImportLine (trim l) = true) (ls : List Str) (i : Nat) :
    fibAux (r ++ ls) i none =
      fibAux ls (i + r.length) (some ⟨r.map trim, i, i + r.length - 1⟩) := by
  cases r with
  | nil => exact absurd rfl hne
  | cons l r =>
    have hl : isImportLine (trim l) = true := h l (List.mem_cons_self _ _)
    rw [List.cons_append, fibAux_import_none hl]
    by_cases hr2 : r = []
    · subst hr2; simp
    · rw [fibAux_run_some r hr2 (fun x hx => h x (List.mem_cons_of_mem _ hx)) ls (i + 1)]
      have hlen : 0 < r.length := List.length_pos.mpr hr2
      have e1 : i + 1 + r.length = i + (l :: r).length := by
        simp only [List.length_cons]; omega
      rw [e1]
      simp

theorem bool_eq_false {b : Bool} (h : ¬b = true) : b = false := by
  cases b <;> simp_all

theorem fibAux_mixed : ∀ (ls : List Str) (i : Nat),
    (∀ l ∈ ls, isImportLine (trim l) = true ∨ trim l = []) →
    (∀ b, (fibAux ls i (some b)).length = 1) ∧
    ((∃ l ∈ ls, isImportLine (trim l) = true) → (fibAux ls i none).length = 1)
  | [], _, _ => ⟨fun _ => rfl, by rintro ⟨l, hl, _⟩; simp at hl⟩
  | l :: ls, i, h => by
    have ih := fibAux_mixed ls (i + 1) (fun x hx => h x (List.mem_cons_of_mem _ hx))
    rcases h l (List.mem_cons_self _ _) with hl | hl
    · refine ⟨fun b => ?_, fun _ => ?_⟩
      · rw [fibAux_import_some hl]; exact ih.1 _
      · rw [fibAux_import_none hl]; exact ih.1 _
    · refine ⟨fun b => ?_, ?_⟩
      · rw [fibAux_blank hl]; exact ih.1 b
      · rintro ⟨x, hx, hix⟩
        rw [fibAux_blank hl]
        refine ih.2 ⟨x, ?_, hix⟩
        rcases List.mem_cons.mp hx with e | e
        · subst e
          rw [hl, isImportLine_nil] at hix
          exact absurd hix (by simp)
        · exact e

theorem fibAux_start_ge : ∀ (ls : List Str) (i : Nat) (cur : Option ImportBlock),
    ∀ bp ∈ fibAux ls i cur,
      (∃ b, cur = some b ∧ bp.start_line = b.start_line) ∨ i ≤ bp.start_line
  | [], _, none => by intro bp hbp; simp [fibAux] at hbp
  | [], _, some b => by
    intro bp hbp
    simp [fibAux] at hbp
    exact Or.inl ⟨b, rfl, by rw [hbp]⟩
  | l :: ls, i, cur => by
    intro bp hbp
    by_cases hl : isImportLine (trim l) = true
    · cases cur with
      | some b =>
        rw [fibAux_import_some hl] at hbp
        rcases fibAux_start_ge ls (i + 1) _ bp hbp with ⟨b2, hb2, e⟩ | hge
        · injection hb2 with hb2
          refine Or.inl ⟨b, rfl, ?_⟩
          rw [e, ← hb2]
        · exact Or.inr (by omega)
      | none =>
        rw [fibAux_import_none hl] at hbp
        rcases fibAux_start_ge ls (i + 1) _ bp hbp with ⟨b2, hb2, e⟩ | hge
        · injection hb2 with hb2
          rw [← hb2] at e
          exact Or.inr (Nat.le_of_eq e.symm)
        · exact Or.inr (by omega)
    · by_cases ht : trim l = []
      · rw [fibAux_blank ht] at hbp
        rcases fibAux_start_ge ls (i + 1) cur bp hbp with hx | hge
        · exact Or.inl hx
        · exact Or.inr (by omega)
      · have hl2 : isImportLine (trim l) = false := bool_eq_false hl
        cases cur with
        | some b =>
          rw [fibAux_close_some hl2 ht] at hbp
          rcases List.mem_cons.mp hbp with e | hbp2
          · exact Or.inl ⟨b, rfl, by rw [e]⟩
          · rcases fibAux_start_ge ls (i + 1) none bp hbp2 with ⟨b2, hb2, _⟩ | hge
            · exact Option.noConfusion hb2
            · exact Or.inr (by omega)
        | none =>
          rw [fibAux_close_none hl2 ht] at hbp
          rcases fibAux_start_ge ls (i + 1) none bp hbp with ⟨b2, hb2, _⟩ | hge
          · exact Option.noConfusion hb2
          · exact Or.inr (by omega)

theorem drop_cons_facts {lines : List Str} {i : Nat} {l : Str} {ls : List Str}
    (h : lines.drop i = l :: ls) :
    i < lines.length ∧ lines.getD i [] = l ∧ lines.drop (i + 1) = ls := by
  have hlen : i < lines.length := by
    by_contra hc
    have hle : lines.length ≤ i := by omega
    rw [List.drop_eq_nil_iff.mpr hle] at h
    exact absurd h (by simp)
  have h2 := List.drop_eq_getElem_cons hlen
  rw [h] at h2
  injection h2 with e1 e2
  refine ⟨hlen, ?_, e2.symm⟩
  simp [List.getD_eq_getElem?_getD, List.getElem?_eq_getElem hlen, ← e1]

theorem curOk_goodBlock {lines : List Str} {i : Nat} {b : ImportBlock}
    (h : CurOk lines i b) : GoodBlock lines b := by
  unfold CurOk at h
  unfold GoodBlock
  exact ⟨h.1, h.2.2.1, h.2.2.2.1, h.2.2.2.2.1, h.2.2.2.2.2.2⟩

theorem fibAux_good : ∀ (ls lines : List Str) (i : Nat) (cur : Option ImportBlock),
    lines.drop i = ls → (∀ b, cur = some b → CurOk lines i b) →
    ∀ b ∈ fibAux ls i cur, GoodBlock lines b
  | [], _, _, none, _, _ => by intro b hb; simp [fibAux] at hb
  | [], _, i, some b0, _, hcur => by
    intro b hb
    simp [fibAux] at hb
    subst hb
    exact curOk_goodBlock (hcur _ rfl)
  | l :: ls, lines, i, cur, hdrop, hcur => by
    obtain ⟨hlen, hgetd, hdrop2⟩ := drop_cons_facts hdrop
    intro b hb
    by_cases hl : isImportLine (trim l) = true
    · cases cur with
      | some b0 =>
        rw [fibAux_import_some hl] at hb
        refine fibAux_good ls lines (i + 1) _ hdrop2 ?_ b hb
        intro b1 hb1
        injection hb1 with hb1
        subst hb1
        have h0 := hcur b0 rfl
        unfold CurOk at h0
        obtain ⟨c1, c2, c3, c4, c5, c6, c7⟩ := h0
        unfold CurOk
        refine ⟨?_, ?_, ?_, ?_, ?_, ?_, ?_⟩
        · show b0.start_line ≤ i
          omega
        · show i < i + 1
          omega
        · show isImportLine (trim (lines.getD b0.start_line [])) = true
          exact c3
        · show isImportLine (trim (lines.getD i [])) = true
          rw [hgetd]; exact hl
        · show ∀ j, b0.start_line ≤ j → j ≤ i →
            (trim (lines.getD j []) ∈ b0.imports ++ [trim l] ∧
              isImportLine (trim (lines.getD j [])) = true) ∨
              trim (lines.getD j []) = []
          intro j hj1 hj2
          rcases Nat.lt_or_ge j i with hji | hji
          · rcases Nat.lt_or_ge b0.end_line j with hje | hje
            · exact Or.inr (c6 j hje hji)
            · rcases c5 j hj1 hje with ⟨hm, him⟩ | hbl
              · exact Or.inl ⟨List.mem_append_left _ hm, him⟩
              · exact Or.inr hbl
          · have hj : j = i := by omega
            subst hj
            rw [hgetd]
            exact Or.inl ⟨List.mem_append_right _ (List.mem_singleton.mpr rfl), hl⟩
        · show ∀ j, i < j → j < i + 1 → trim (lines.getD j []) = []
          intro j hj1 hj2
          omega
        · show ∀ imp ∈ b0.imports ++ [trim l], isImportLine imp = true
          intro imp him
          rcases List.mem_append.mp him with hm | hm
          · exact c7 imp hm
          · rw [List.mem_singleton] at hm
            rw [hm]
            exact hl
      | none =>
        rw [fibAux_import_none hl] at hb
        refine fibAux_good ls lines (i + 1) _ hdrop2 ?_ b hb
        intro b1 hb1
        injection hb1 with hb1
        subst hb1
        unfold CurOk
        refine ⟨?_, ?_, ?_, ?_, ?_, ?_, ?_⟩
        · show i ≤ i
          omega
        · show i < i + 1
          omega
        · show isImportLine (trim (lines.getD i [])) = true
          rw [hgetd]; exact hl
        · show isImportLine (trim (lines.getD i [])) = true
          rw [hgetd]; exact hl
        · show ∀ j, i ≤ j → j ≤ i →
            (trim (lines.getD j []) ∈ [trim l] ∧
              isImportLine (trim (lines.getD j [])) = true) ∨
              trim (lines.getD j []) = []
          intro j hj1 hj2
          have hj : j = i := by omega
          subst hj
          rw [hgetd]
          exact Or.inl ⟨List.mem_singleton.mpr rfl, hl⟩
        · show ∀ j, i < j → j < i + 1 → trim (lines.getD j []) = []
          intro j hj1 hj2
          omega
        · show ∀ imp ∈ [trim l], isImportLine imp = true
          intro imp him
          rw [List.mem_singleton] at him
          rw [him]
          exact hl
    · by_cases ht : trim l = []
      · rw [fibAux_blank ht] at hb
        refine fibAux_good ls lines (i + 1) cur hdrop2 ?_ b hb
        intro b0 hb0
        have h0 := hcur b0 hb0
        unfold CurOk at h0 ⊢
        obtain ⟨c1, c2, c3, c4, c5, c6, c7⟩ := h0
        refine ⟨c1, by omega, c3, c4, c5, ?_, c7⟩
        intro j hj1 hj2
        rcases Nat.lt_or_ge j i with hji | hji
        · exact c6 j hj1 hji
        · have hj : j = i := by omega
          subst hj
          rw [hgetd]
          exact ht
      · have hl2 : isImportLine (trim l) = false := bool_eq_false hl
        cases cur with
        | some b0 =>
          rw [fibAux_close_some hl2 ht] at hb
          rcases List.mem_cons.mp hb with e | hb2
          · rw [e]
            exact curOk_goodBlock (hcur b0 rfl)
          · exact fibAux_good ls lines (i + 1) none hdrop2
              (fun b1 h => Option.noConfusion h) b hb2
        | none =>
          rw [fibAux_close_none hl2 ht] at hb
          exact fibAux_good ls lines (i + 1) none hdrop2
            (fun b1 h => Option.noConfusion h) b hb

theorem fibAux_chain : ∀ (ls lines : List Str) (i : Nat) (cur : Option ImportBlock),
    lines.drop i = ls → (∀ b, cur = some b → b.end_line < i) →
    List.Chain' (sepBetween lines) (fibAux ls i cur)
  | [], _, _, none, _, _ => by simp [fibAux]
  | [], _, _, some b, _, _ => by simp [fibAux]
  | l :: ls, lines, i, cur, hdrop, hend => by
    obtain ⟨hlen, hgetd, hdrop2⟩ := drop_cons_facts hdrop
    by_cases hl : isImportLine (trim l) = true
    · cases cur with
      | some b0 =>
        rw [fibAux_import_some hl]
        refine fibAux_chain ls lines (i + 1) _ hdrop2 ?_
        intro b1 h
        injection h with h
        rw [← h]
        exact Nat.lt_succ_self i
      | none =>
        rw [fibAux_import_none hl]
        refine fibAux_chain ls lines (i + 1) _ hdrop2 ?_
        intro b1 h
        injection h with h
        rw [← h]
        exact Nat.lt_succ_self i
    · by_cases ht : trim l = []
      · rw [fibAux_blank ht]
        exact fibAux_chain ls lines (i + 1) cur hdrop2
          (fun b1 h => Nat.lt_succ_of_lt (hend b1 h))
      · have hl2 : isImportLine (trim l) = false := bool_eq_false hl
        cases cur with
        | none =>
          rw [fibAux_close_none hl2 ht]
          exact fibAux_chain ls lines (i + 1) none hdrop2
            (fun b1 h => Option.noConfusion h)
        | some b0 =>
          rw [fibAux_close_some hl2 ht]
          rw [List.chain'_cons']
          constructor
          · intro y hy
            have hym : y ∈ fibAux ls (i + 1) none := List.mem_of_mem_head? hy
            rcases fibAux_start_ge ls (i + 1) none y hym with ⟨b2, hb2, _⟩ | hge
            · exact Option.noConfusion hb2
            · unfold sepBetween
              refine ⟨i, hend b0 rfl, by omega, hlen, ?_, ?_⟩
              · rw [hgetd]; exact ht
              · rw [hgetd]; exact hl2
          · exact fibAux_chain ls lines (i + 1) none hdrop2
              (fun b1 h => Option.noConfusion h)

theorem from_two_dots_is_from_dot {l : Str}
    (h : "from ..".toList.isPrefixOf l = true) :
    "from .".toList.isPrefixOf l = true := by
  have hp := List.isPrefixOf_iff_prefix.mp h
  have hsub : "from .".toList <+: "from ..".toList := by decide
  exact List.isPrefixOf_iff_prefix.mpr (hsub.trans hp)

/-- C8.  The classification rule of `determine_import_group` is exactly the
rule the specification words: future marker first, then the relative-import
marker, then membership of the dot-truncated second whitespace token in the
fixed standard-library list; and a line without a second token (malformed)
falls through to `ThirdParty` rather than being rejected. -/
theorem c8_classification_rule :
    (∀ line : Str, determine_import_group line = spec_classify line) ∧
    (∀ line : Str, containsSub litFuture line = false →
      "from .".toList.isPrefixOf line = false → (splitWsTokens line).length ≤ 1 →
      determine_import_group line = .ThirdParty) := by
  have hdot : ∀ line : Str, "from .".toList.isPrefixOf line = false →
      (("from .".toList.isPrefixOf line) || ("from ..".toList.isPrefixOf line)) = false := by
    intro line h1
    rw [h1]
    cases h2 : "from ..".toList.isPrefixOf line
    · rfl
    · rw [from_two_dots_is_from_dot h2] at h1
      exact absurd h1 (by simp)
  constructor
  · intro line
    unfold determine_import_group spec_classify
    by_cases hf : containsSub litFuture line = true
    · rw [if_pos hf, if_pos hf]
    · have hf2 : containsSub litFuture line = false := bool_eq_false hf
      rw [hf2]
      simp only [Bool.false_eq_true, if_false]
      by_cases h1 : "from .".toList.isPrefixOf line = true
      · rw [h1]
        simp
      · have h1f : "from .".toList.isPrefixOf line = false := bool_eq_false h1
        rw [hdot line h1f, h1f]
        simp only [Bool.false_eq_true, if_false, ite_self]
  · intro line hf h1 htok
    unfold determine_import_group
    rw [hf, hdot line h1]
    simp only [Bool.false_eq_true, if_false, ite_self]
    have hnth : nthToken line 1 = [] := by
      unfold nthToken
      rw [List.getD_eq_getElem?_getD]
      rw [List.getElem?_eq_none (by omega)]
      rfl
    rw [hnth]
    decide

theorem c8_classification_rule_witness :
    determine_import_group "from os.path import join".toList =
      spec_classify "from os.path import join".toList ∧
    determine_import_group "import".toList = ImportGroup.ThirdParty :=
  ⟨c8_classification_rule.1 _,
    c8_classification_rule.2 _ (by decide) (by decide) (by decide)⟩

/-- C9.  Block extraction: no import lines gives no blocks; every returned
block satisfies the span invariant (`GoodBlock`); two import runs separated
by one non-blank, non-import line give exactly the two expected blocks; and
a run of imports and blank lines holding at least one import gives exactly
one block, regardless of how many consecutive blank lines occur. -/
theorem c9_block_extraction (lines : List Str) :
    ((∀ l ∈ lines, isImportLine (trim l) = false) → find_import_blocks lines = []) ∧
    (∀ b ∈ find_import_blocks lines, GoodBlock lines b) ∧
    (∀ r1 r2 : List Str, ∀ sep : Str, lines = r1 ++ sep :: r2 → r1 ≠ [] → r2 ≠ [] →
      (∀ l ∈ r1, isImportLine (trim l) = true) →
      (∀ l ∈ r2, isImportLine (trim l) = true) →
      trim sep ≠ [] → isImportLine (trim sep) = false →
      find_import_blocks lines =
        [⟨r1.map trim, 0, r1.length - 1⟩,
         ⟨r2.map trim, r1.length + 1, r1.length + r2.length⟩]) ∧
    ((∀ l ∈ lines, isImportLine (trim l) = true ∨ trim l = []) →
      (∃ l ∈ lines, isImportLine (trim l) = true) →
      (find_import_blocks lines).length = 1) := by
  refine ⟨?_, ?_, ?_, ?_⟩
  · intro h
    exact (fibAux_no_import lines 0 h).2
  · intro b hb
    exact fibAux_good lines lines 0 none (by simp) (fun b1 h => Option.noConfusion h) b hb
  · intro r1 r2 sep hline h1ne h2ne himp1 himp2 hsep hsepimp
    subst hline
    unfold find_import_blocks
    rw [fibAux_run_none r1 h1ne himp1 (sep :: r2) 0]
    simp only [Nat.zero_add]
    rw [fibAux_close_some hsepimp hsep]
    have hrun2 := fibAux_run_none r2 h2ne himp2 [] (r1.length + 1)
    rw [List.append_nil] at hrun2
    rw [hrun2]
    have e : r1.length + 1 + r2.length - 1 = r1.length + r2.length := by
      have := List.length_pos.mpr h2ne
      omega
    rw [e]
    rfl
  · intro hmix hex
    exact (fibAux_mixed lines 0 hmix).2 hex

theorem c9_block_extraction_witness :
    find_import_blocks ["x=1".toList] = [] :=
  (c9_block_extraction _).1 (by decide)

/-- C3 amended.  On a file with zero import-statement lines the transform
returns the file's lines rejoined with newline separators, with leading
whitespace and the final line terminator removed; it is byte-identical only
for content already of that shape (no leading whitespace, no trailing
newline), and otherwise the file is rewritten once. -/
theorem c3_no_import_transform (content : String)
    (h : ∀ l ∈ rustLines content.data, isImportLine (trim l) = false) :
    process_file_content content =
      String.mk (trimStart (joinNl (rustLines content.data))) := by
  unfold process_file_content process_file_content_lines
  rw [show find_import_blocks (rustLines content.data) = [] from
    (fibAux_no_import (rustLines content.data) 0 h).2]
  simp only [List.foldl_nil]
  by_cases hlen : 0 < (rustLines content.data).length
  · rw [if_pos hlen, List.drop_zero]
    by_cases hr : trimStart (joinNl (rustLines content.data)) = []
    · rw [if_pos hr, hr]
    · rw [if_neg hr, List.nil_append]
  · rw [if_neg hlen]
    have hnil : rustLines content.data = [] := by
      cases hx : rustLines content.data
      · rfl
      · rw [hx] at hlen
        exact absurd (by simp) hlen
    rw [hnil]
    rfl

theorem c3_no_import_transform_witness :
    process_file_content "x=1\n" =
      String.mk (trimStart (joinNl (rustLines "x=1\n".data))) :=
  c3_no_import_transform _ (by decide)

/-! Lemmas about trimming, line splitting and joining. -/

theorem dropWhile_head? {p : α → Bool} : ∀ (l : List α) {c : α},
    (l.dropWhile p).head? = some c → p c = false
  | [], c => by intro h; simp at h
  | a :: l, c => by
    intro h
    by_cases hp : p a = true
    · rw [List.dropWhile_cons_of_pos hp] at h
      exact dropWhile_head? l h
    · rw [List.dropWhile_cons_of_neg hp] at h
      simp only [List.head?_cons, Option.some.injEq] at h
      rw [← h]
      exact bool_eq_false hp

theorem trimEnd_getLast {s : Str} {c : Char} (h : (trimEnd s).getLast? = some c) :
    isWs c = false := by
  unfold trimEnd at h
  rw [List.getLast?_reverse] at h
  exact dropWhile_head? _ h

theorem trimStart_head {s : Str} {c : Char} (h : (trimStart s).head? = some c) :
    isWs c = false :=
  dropWhile_head? _ h

theorem dropWhile_ne_nil {p : α → Bool} : ∀ {l : List α},
    (∃ c ∈ l, p c = false) → l.dropWhile p ≠ []
  | [], h => by rcases h with ⟨c, hc, _⟩; simp at hc
  | a :: l, h => by
    by_cases hp : p a = true
    · rw [List.dropWhile_cons_of_pos hp]
      rcases h with ⟨c, hc, hcp⟩
      rcases List.mem_cons.mp hc with e | e
      · subst e; rw [hp] at hcp; exact absurd hcp (by simp)
      · exact dropWhile_ne_nil ⟨c, e, hcp⟩
    · rw [List.dropWhile_cons_of_neg hp]
      simp

theorem trimEnd_ne_nil {s : Str} (h : ∃ c ∈ s, isWs c = false) : trimEnd s ≠ [] := by
  unfold trimEnd
  simp only [ne_eq, List.reverse_eq_nil_iff]
  refine dropWhile_ne_nil ?_
  rcases h with ⟨c, hc, hcp⟩
  exact ⟨c, List.mem_reverse.mpr hc, hcp⟩

theorem mem_trimStart {s : Str} {c : Char} (h : c ∈ trimStart s) : c ∈ s :=
  (List.dropWhile_sublist _).mem h

theorem mem_trimEnd {s : Str} {c : Char} (h : c ∈ trimEnd s) : c ∈ s := by
  unfold trimEnd at h
  rw [List.mem_reverse] at h
  exact List.mem_reverse.mp ((List.dropWhile_sublist _).mem h)

theorem mem_trim {s : Str} {c : Char} (h : c ∈ trim s) : c ∈ s :=
  mem_trimStart (mem_trimEnd h)

theorem trim_ne_nil_nonws {s : Str} (h : trim s ≠ []) : ∃ c ∈ s, isWs c = false := by
  by_contra hc
  push_neg at hc
  apply h
  unfold trim trimStart
  rw [List.dropWhile_eq_nil_iff.mpr (fun x hx => by
    have := hc x hx
    revert this
    cases isWs x <;> simp)]
  rfl

theorem mem_joinNl : ∀ {ls : List Str} {l : Str} {c : Char},
    l ∈ ls → c ∈ l → c ∈ joinNl ls
  | [], _, _, hl, _ => by simp at hl
  | [x], l, c, hl, hc => by
    rw [List.mem_singleton] at hl
    subst hl
    exact hc
  | x :: y :: ls, l, c, hl, hc => by
    rcases List.mem_cons.mp hl with e | e
    · subst e
      show c ∈ l ++ '\n' :: joinNl (y :: ls)
      exact List.mem_append_left _ hc
    · show c ∈ x ++ '\n' :: joinNl (y :: ls)
      refine List.mem_append_right _ ?_
      exact List.mem_cons_of_mem _ (mem_joinNl e hc)

theorem splitNl_ne_nil : ∀ s : Str, splitNl s ≠ []
  | [] => by simp [splitNl]
  | c :: cs => by
    unfold splitNl
    by_cases h : c = '\n'
    · simp [h]
    · rw [if_neg h]
      cases hx : splitNl cs <;> simp

theorem splitNl_append_line : ∀ (l r : Str), nlFree l = true →
    splitNl (l ++ '\n' :: r) = l :: splitNl r
  | [], r, _ => by simp [splitNl]
  | c :: l, r, h => by
    have hc : (c != '\n') = true := by
      have := (List.all_eq_true.mp h) c (List.mem_cons_self _ _)
      exact this
    have hc2 : ¬(c = '\n') := by simpa using hc
    have hl : nlFree l = true := by
      refine List.all_eq_true.mpr ?_
      intro x hx
      exact (List.all_eq_true.mp h) x (List.mem_cons_of_mem _ hx)
    show splitNl (c :: (l ++ '\n' :: r)) = (c :: l) :: splitNl r
    rw [splitNl, if_neg hc2, splitNl_append_line l r hl]

theorem splitNl_nlFree : ∀ (s : Str), ∀ p ∈ splitNl s, nlFree p = true
  | [] => by intro p hp; simp [splitNl] at hp; simp [hp, nlFree]
  | c :: cs => by
    intro p hp
    unfold splitNl at hp
    by_cases h : c = '\n'
    · rw [if_pos h] at hp
      rcases List.mem_cons.mp hp with e | e
      · simp [e, nlFree]
      · exact splitNl_nlFree cs p e
    · rw [if_neg h] at hp
      cases hx : splitNl cs with
      | nil => exact absurd hx (splitNl_ne_nil cs)
      | cons q qs =>
        rw [hx] at hp
        rcases List.mem_cons.mp hp with e | e
        · subst e
          have hq : nlFree q = true := splitNl_nlFree cs q (by rw [hx]; simp)
          refine List.all_eq_true.mpr ?_
          intro x hx2
          rcases List.mem_cons.mp hx2 with e2 | e2
          · subst e2; simpa using h
          · exact (List.all_eq_true.mp hq) x e2
        · exact splitNl_nlFree cs p (by rw [hx]; exact List.mem_cons_of_mem _ e)

theorem nlFree_of_subset {l1 l2 : Str} (hs : ∀ c ∈ l2, c ∈ l1)
    (h : nlFree l1 = true) : nlFree l2 = true := by
  refine List.all_eq_true.mpr ?_
  intro x hx
  exact (List.all_eq_true.mp h) x (hs x hx)

theorem stepBlock_eq (lines : List Str) (acc : Str) (lastEnd : Nat)
    (b : ImportBlock) :
    stepBlock lines (acc, lastEnd) b =
      (acc ++ segText ⟨trimEnd (joinNl ((lines.drop lastEnd).take
          (b.start_line - lastEnd))), b.imports⟩,
        b.end_line + 1) := by
  simp only [stepBlock, segText]
  by_cases hpre :
      trimEnd (joinNl ((lines.drop lastEnd).take (b.start_line - lastEnd))) = []
  · rw [if_pos hpre, if_pos hpre]
    simp [List.append_assoc]
  · rw [if_neg hpre, if_neg hpre]
    simp [List.append_assoc]

theorem process_foldl_aux (lines : List Str) :
    ∀ (bs : List ImportBlock) (acc : Str) (lastEnd : Nat),
    bs.foldl (stepBlock lines) (acc, lastEnd) =
      (acc ++ ((segsOfAux lines lastEnd bs).1.map segText).flatten,
        (segsOfAux lines lastEnd bs).2)
  | [], acc, lastEnd => by simp [segsOfAux]
  | b :: bs, acc, lastEnd => by
    rw [List.foldl_cons, stepBlock_eq, process_foldl_aux lines bs]
    simp [segsOfAux, List.append_assoc]

theorem process_decomp (lines : List Str) :
    process_file_content_lines lines =
      ((segsOf lines).1.map segText).flatten ++ tailOf lines (segsOf lines).2 := by
  unfold process_file_content_lines segsOf tailOf
  rw [process_foldl_aux lines (find_import_blocks lines) [] 0]
  simp only [List.nil_append]
  by_cases hlen : (segsOfAux lines 0 (find_import_blocks lines)).2 < lines.length
  · rw [if_pos hlen, if_pos hlen]
    by_cases hr : trimStart (joinNl
        (lines.drop (segsOfAux lines 0 (find_import_blocks lines)).2)) = []
    · rw [if_pos hr, hr]
      simp
    · rw [if_neg hr]
  · rw [if_neg hlen, if_neg hlen]
    simp

theorem rustLines_nlFree {s : Str} : ∀ l ∈ rustLines s, nlFree l = true := by
  intro l hl
  unfold rustLines at hl
  have hini : ∀ q ∈ (splitNl s).dropLast.map stripCr, nlFree q = true := by
    intro q hq
    rcases List.mem_map.mp hq with ⟨q0, hq0, e⟩
    have hq0m : q0 ∈ splitNl s := (List.dropLast_sublist _).mem hq0
    have h0 : nlFree q0 = true := splitNl_nlFree s q0 hq0m
    rw [← e]
    unfold stripCr
    by_cases hcr : q0.getLast? = some '\r'
    · rw [if_pos hcr]
      exact nlFree_of_subset (fun c hc => (List.dropLast_sublist _).mem hc) h0
    · rw [if_neg hcr]
      exact h0
  cases hx : (splitNl s).getLast? with
  | none => rw [hx] at hl; exact hini l hl
  | some q =>
    rw [hx] at hl
    cases q with
    | nil => exact hini l hl
    | cons a q2 =>
      rcases List.mem_append.mp hl with hm | hm
      · exact hini l hm
      · rw [List.mem_singleton] at hm
        subst hm
        exact splitNl_nlFree s _ (List.mem_of_getLast?_eq_some hx)

/-! Lemmas about category chunking and block rendering. -/

theorem chunkBy_cons_eq (x : GroupedImport) (xs : List GroupedImport) :
    chunkBy (x :: xs) =
      match chunkBy xs with
      | [] => [(x.group, [x.line])]
      | (g, ls) :: rest =>
        if x.group = g then (g, x.line :: ls) :: rest
        else (x.group, [x.line]) :: (g, ls) :: rest := rfl

theorem chunkBy_cons_head (x : GroupedImport) (xs : List GroupedImport) :
    ∃ t r, chunkBy (x :: xs) = (x.group, x.line :: t) :: r := by
  cases hch : chunkBy xs with
  | nil => exact ⟨[], [], by simp [chunkBy, hch]⟩
  | cons p rest =>
    obtain ⟨g, ls⟩ := p
    by_cases hg : x.group = g
    · refine ⟨ls, rest, ?_⟩
      simp only [chunkBy, hch, if_pos hg]
      rw [hg]
    · exact ⟨[], (g, ls) :: rest, by simp only [chunkBy, hch, if_neg hg]⟩

theorem chunkBy_ne_nil (x : GroupedImport) (xs : List GroupedImport) :
    chunkBy (x :: xs) ≠ [] := by
  obtain ⟨t, r, h⟩ := chunkBy_cons_head x xs
  rw [h]
  simp

theorem GroupedImport.eta (x : GroupedImport) :
    GroupedImport.mk x.group x.line = x := rfl

theorem chunkBy_flatten : ∀ gs : List GroupedImport,
    ((chunkBy gs).map (fun p => p.2.map (fun l => GroupedImport.mk p.1 l))).flatten = gs
  | [] => rfl
  | x :: xs => by
    have ih := chunkBy_flatten xs
    cases hch : chunkBy xs with
    | nil =>
      have hxs : xs = [] := by
        cases xs with
        | nil => rfl
        | cons y ys => exact absurd hch (chunkBy_ne_nil y ys)
      subst hxs
      simp [chunkBy, GroupedImport.eta]
    | cons p rest =>
      obtain ⟨g, ls⟩ := p
      rw [hch] at ih
      by_cases hg : x.group = g
      · have hcx : chunkBy (x :: xs) = (g, x.line :: ls) :: rest := by
          rw [chunkBy_cons_eq, hch]
          simp [hg]
        rw [hcx]
        simp only [List.map_cons, List.flatten_cons, List.cons_append] at ih ⊢
        rw [ih, ← hg, GroupedImport.eta]
      · have hcx : chunkBy (x :: xs) = (x.group, [x.line]) :: (g, ls) :: rest := by
          rw [chunkBy_cons_eq, hch]
          simp [hg]
        rw [hcx]
        simp only [List.map_cons, List.map_nil, List.flatten_cons, List.cons_append,
          List.nil_append] at ih ⊢
        rw [GroupedImport.eta, ih]

theorem chunkBy_nonempty : ∀ gs : List GroupedImport, ∀ p ∈ chunkBy gs, p.2 ≠ []
  | [] => by simp [chunkBy]
  | x :: xs => by
    intro p hp
    cases hch : chunkBy xs with
    | nil =>
      rw [show chunkBy (x :: xs) = [(x.group, [x.line])] from by
        simp [chunkBy, hch]] at hp
      rw [List.mem_singleton] at hp
      rw [hp]
      simp
    | cons q rest =>
      obtain ⟨g, ls⟩ := q
      by_cases hg : x.group = g
      · rw [show chunkBy (x :: xs) = (g, x.line :: ls) :: rest from by
          simp [chunkBy, hch, if_pos hg]] at hp
        rcases List.mem_cons.mp hp with e | e
        · rw [e]; simp
        · exact chunkBy_nonempty xs p (by rw [hch]; exact List.mem_cons_of_mem _ e)
      · rw [show chunkBy (x :: xs) = (x.group, [x.line]) :: (g, ls) :: rest from by
          simp [chunkBy, hch, if_neg hg]] at hp
        rcases List.mem_cons.mp hp with e | e
        · rw [e]; simp
        · exact chunkBy_nonempty xs p (by rw [hch]; exact e)

theorem gToNat_inj : ∀ a b : ImportGroup, gToNat a = gToNat b → a = b := by
  intro a b
  cases a <;> cases b <;> decide

theorem chunkBy_chain : ∀ gs : List GroupedImport,
    gs.Pairwise (fun a b => gToNat a.group ≤ gToNat b.group) →
    List.Chain' (fun p q => gToNat p.1 < gToNat q.1) (chunkBy gs)
  | [] => by simp [chunkBy]
  | x :: xs => fun hp => by
    rcases List.pairwise_cons.mp hp with ⟨hx, hxs⟩
    have ih := chunkBy_chain xs hxs
    cases hxs0 : xs with
    | nil =>
      subst hxs0
      simp [chunkBy]
    | cons y ys =>
      subst hxs0
      obtain ⟨t, r, hch⟩ := chunkBy_cons_head y ys
      rw [hch] at ih
      by_cases hg : x.group = y.group
      · have hcx : chunkBy (x :: y :: ys) = (y.group, x.line :: y.line :: t) :: r := by
          rw [chunkBy_cons_eq, hch]
          simp [hg]
        rw [hcx]
        rw [List.chain'_cons'] at ih ⊢
        exact ⟨ih.1, ih.2⟩
      · have hcx : chunkBy (x :: y :: ys) =
            (x.group, [x.line]) :: (y.group, y.line :: t) :: r := by
          rw [chunkBy_cons_eq, hch]
          simp [hg]
        rw [hcx]
        rw [List.chain'_cons]
        refine ⟨?_, ih⟩
        show gToNat x.group < gToNat y.group
        have hle := hx y (List.mem_cons_self _ _)
        have hne : gToNat x.group ≠ gToNat y.group := fun e => hg (gToNat_inj _ _ e)
        omega

theorem interBlank_cons_head (a : Str) (ls : List Str) (M : List (List Str)) :
    interBlank ((a :: ls) :: M) = a :: interBlank (ls :: M) := by
  cases M with
  | nil => rfl
  | cons m ms => simp [interBlank]

theorem splitNl_blank_cons (s : Str) : splitNl ('\n' :: s) = [] :: splitNl s := by
  simp [splitNl]

theorem splitNl_renderAux_core : ∀ (x : GroupedImport) (xs : List GroupedImport),
    (∀ g ∈ x :: xs, nlFree g.line = true) →
    splitNl (x.line ++ '\n' :: renderAux (some x.group) xs) =
      interBlank ((chunkBy (x :: xs)).map Prod.snd) ++ [[]]
  | x, [], h => by
    rw [splitNl_append_line _ _ (h x (List.mem_cons_self _ _))]
    simp [renderAux, splitNl, chunkBy, interBlank]
  | x, y :: ys, h => by
    rw [splitNl_append_line _ _ (h x (List.mem_cons_self _ _))]
    have hcore := splitNl_renderAux_core y ys (fun g hg => h g (List.mem_cons_of_mem _ hg))
    obtain ⟨t, r, hch⟩ := chunkBy_cons_head y ys
    rw [hch] at hcore
    by_cases hg : x.group = y.group
    · have e : renderAux (some x.group) (y :: ys) =
          y.line ++ '\n' :: renderAux (some y.group) ys := by
        simp [renderAux, hg]
      rw [e, hcore]
      have hcx : chunkBy (x :: y :: ys) = (y.group, x.line :: y.line :: t) :: r := by
        rw [chunkBy_cons_eq, hch]
        simp [hg]
      rw [hcx]
      simp only [List.map_cons]
      simp [interBlank_cons_head, List.cons_append]
    · have e : renderAux (some x.group) (y :: ys) =
          '\n' :: (y.line ++ '\n' :: renderAux (some y.group) ys) := by
        simp only [renderAux]
        rw [if_neg (by simp [hg]), if_neg (by simp)]
        simp
      rw [e, splitNl_blank_cons, hcore]
      have hcx : chunkBy (x :: y :: ys) =
          (x.group, [x.line]) :: (y.group, y.line :: t) :: r := by
        rw [chunkBy_cons_eq, hch]
        simp [hg]
      rw [hcx]
      simp only [List.map_cons]
      simp [interBlank, interBlank_cons_head, List.cons_append]

theorem splitNl_renderAux_none (gs : List GroupedImport)
    (h : ∀ g ∈ gs, nlFree g.line = true) :
    splitNl (renderAux none gs) = interBlank ((chunkBy gs).map Prod.snd) ++ [[]] := by
  cases gs with
  | nil => simp [renderAux, splitNl, chunkBy, interBlank]
  | cons x xs =>
    have e : renderAux none (x :: xs) = x.line ++ '\n' :: renderAux (some x.group) xs := by
      simp [renderAux]
    rw [e]
    exact splitNl_renderAux_core x xs h

/-! Lemmas about the per-block segments of the rewrite. -/

theorem segsOfAux_nil (lines : List Str) (lastEnd : Nat) :
    segsOfAux lines lastEnd [] = ([], lastEnd) := rfl

theorem segsOfAux_cons (lines : List Str) (lastEnd : Nat) (b : ImportBlock)
    (bs : List ImportBlock) :
    segsOfAux lines lastEnd (b :: bs) =
      (⟨trimEnd (joinNl ((lines.drop lastEnd).take (b.start_line - lastEnd))),
          b.imports⟩ :: (segsOfAux lines (b.end_line + 1) bs).1,
        (segsOfAux lines (b.end_line + 1) bs).2) := rfl

theorem segsOfAux_pre_last (lines : List Str) : ∀ (bs : List ImportBlock) (lastEnd : Nat),
    ∀ s ∈ (segsOfAux lines lastEnd bs).1, ∀ c : Char,
      s.pre.getLast? = some c → isWs c = false
  | [], lastEnd => by intro s hs; rw [segsOfAux_nil] at hs; simp at hs
  | b :: bs, lastEnd => by
    intro s hs c hc
    rw [segsOfAux_cons] at hs
    rcases List.mem_cons.mp hs with e | e
    · subst e
      exact trimEnd_getLast hc
    · exact segsOfAux_pre_last lines bs (b.end_line + 1) s e c hc

theorem segsOfAux_imps (lines : List Str) : ∀ (bs : List ImportBlock) (lastEnd : Nat),
    ∀ s ∈ (segsOfAux lines lastEnd bs).1, ∃ b ∈ bs, s.imps = b.imports
  | [], lastEnd => by intro s hs; rw [segsOfAux_nil] at hs; simp at hs
  | b :: bs, lastEnd => by
    intro s hs
    rw [segsOfAux_cons] at hs
    rcases List.mem_cons.mp hs with e | e
    · exact ⟨b, List.mem_cons_self _ _, by rw [e]⟩
    · obtain ⟨b2, hb2, e2⟩ := segsOfAux_imps lines bs (b.end_line + 1) s e
      exact ⟨b2, List.mem_cons_of_mem _ hb2, e2⟩

theorem segsOfAux_pre_sep (lines : List Str) : ∀ (bs : List ImportBlock) (b0 : ImportBlock),
    List.Chain' (sepBetween lines) (b0 :: bs) →
    ∀ s ∈ (segsOfAux lines (b0.end_line + 1) bs).1, s.pre ≠ []
  | [], b0, _ => by intro s hs; rw [segsOfAux_nil] at hs; simp at hs
  | b :: bs, b0, hc => by
    intro s hs
    rw [segsOfAux_cons] at hs
    rw [List.chain'_cons] at hc
    rcases hc with ⟨hsep, hrest⟩
    rcases List.mem_cons.mp hs with e | e
    · subst e
      show trimEnd (joinNl ((lines.drop (b0.end_line + 1)).take
        (b.start_line - (b0.end_line + 1)))) ≠ []
      unfold sepBetween at hsep
      obtain ⟨j, hj1, hj2, hjlen, hjnb, _⟩ := hsep
      have hjmem : lines.getD j [] ∈
          (lines.drop (b0.end_line + 1)).take (b.start_line - (b0.end_line + 1)) := by
        refine List.getElem?_mem (n := j - (b0.end_line + 1)) ?_
        rw [List.getElem?_take_of_lt (by omega), List.getElem?_drop]
        have he : b0.end_line + 1 + (j - (b0.end_line + 1)) = j := by omega
        rw [he, List.getElem?_eq_getElem hjlen]
        simp [List.getD_eq_getElem?_getD, List.getElem?_eq_getElem hjlen]
      obtain ⟨ch, hch1, hch2⟩ := trim_ne_nil_nonws hjnb
      exact trimEnd_ne_nil ⟨ch, mem_joinNl hjmem hch1, hch2⟩
    · exact segsOfAux_pre_sep lines bs b hrest s e

theorem tailOf_head {lines : List Str} {k : Nat} {c : Char}
    (h : (tailOf lines k).head? = some c) : isWs c = false := by
  unfold tailOf at h
  by_cases hk : k < lines.length
  · rw [if_pos hk] at h
    exact trimStart_head h
  · rw [if_neg hk] at h
    simp at h

theorem goodBlock_imports_ne_nil {lines : List Str} {b : ImportBlock}
    (h : GoodBlock lines b) : b.imports ≠ [] := by
  unfold GoodBlock at h
  obtain ⟨h1, h2, h3, h4, h5⟩ := h
  rcases h4 b.start_line (Nat.le_refl _) h1 with ⟨hm, _⟩ | hbl
  · exact List.ne_nil_of_mem hm
  · rw [hbl] at h2
    rw [isImportLine_nil] at h2
    exact absurd h2 (by simp)

theorem gasi_ne_nil {imports : List Str} (h : imports ≠ []) :
    group_and_sort_imports imports ≠ [] := by
  have hlen := (sortBy_perm cmpGI
    (imports.map (fun imp => GroupedImport.mk (determine_import_group imp) imp))).length_eq
  rw [List.length_map] at hlen
  intro he
  rw [group_and_sort_imports] at he
  rw [he] at hlen
  exact h (List.length_eq_zero.mp hlen.symm)

theorem fibAux_imports_pred (P : Str → Prop) :
    ∀ (ls : List Str) (i : Nat) (cur : Option ImportBlock),
    (∀ l ∈ ls, P (trim l)) →
    (∀ b, cur = some b → ∀ imp ∈ b.imports, P imp) →
    ∀ b ∈ fibAux ls i cur, ∀ imp ∈ b.imports, P imp
  | [], _, none => by intro _ _ b hb; simp [fibAux] at hb
  | [], _, some b0 => by
    intro _ hcur b hb
    simp [fibAux] at hb
    subst hb
    exact hcur _ rfl
  | l :: ls, i, cur => by
    intro hP hcur b hb
    have hPt : ∀ x ∈ ls, P (trim x) := fun x hx => hP x (List.mem_cons_of_mem _ hx)
    by_cases hl : isImportLine (trim l) = true
    · cases cur with
      | some b0 =>
        rw [fibAux_import_some hl] at hb
        refine fibAux_imports_pred P ls (i + 1) _ hPt ?_ b hb
        intro b1 h1
        injection h1 with h1
        subst h1
        intro imp him
        rcases List.mem_append.mp him with hm | hm
        · exact hcur b0 rfl imp hm
        · rw [List.mem_singleton] at hm
          rw [hm]
          exact hP l (List.mem_cons_self _ _)
      | none =>
        rw [fibAux_import_none hl] at hb
        refine fibAux_imports_pred P ls (i + 1) _ hPt ?_ b hb
        intro b1 h1
        injection h1 with h1
        subst h1
        intro imp him
        rw [List.mem_singleton] at him
        rw [him]
        exact hP l (List.mem_cons_self _ _)
    · by_cases ht : trim l = []
      · rw [fibAux_blank ht] at hb
        exact fibAux_imports_pred P ls (i + 1) cur hPt hcur b hb
      · have hl2 : isImportLine (trim l) = false := bool_eq_false hl
        cases cur with
        | some b0 =>
          rw [fibAux_close_some hl2 ht] at hb
          rcases List.mem_cons.mp hb with e | hb2
          · rw [e]
            exact hcur b0 rfl
          · exact fibAux_imports_pred P ls (i + 1) none hPt
              (fun b1 h => Option.noConfusion h) b hb2
        | none =>
          rw [fibAux_close_none hl2 ht] at hb
          exact fibAux_imports_pred P ls (i + 1) none hPt
            (fun b1 h => Option.noConfusion h) b hb

/-- C2 amended.  Blank-line structure of the rewritten content.  The output
decomposes into one segment per detected block followed by the stripped
remainder (first conjunct); each segment is the preceding text, a blank
separator line when that text is non-empty, the rendered block, and two
newline characters (`segText`).  The remaining conjuncts pin down every
blank line: each segment's preceding text ends in a non-whitespace
character and, except possibly for the first block, is non-empty — so every
block not at the start of the file is preceded by exactly one blank line;
the remainder after the last block starts with a non-whitespace character —
so the two newline characters after a block amount to exactly two blank
lines there, and interior blocks are followed by two blank lines plus
whatever blank lines stood before the next non-import content in the input;
and the rendered block splits into lines as the category runs of the
sorted imports joined by exactly one blank line, with strictly increasing
categories, no empty run, and no blank import line — so inside a block there
is exactly one blank line between adjacent categories that both have
members and no other blank line.  (The original claim's "followed by
exactly one blank line" is refuted by `c2_counterexample`: the code always
appends two.) -/
theorem c2_blank_line_structure (content : String) :
    process_file_content content =
      String.mk (((segsOf (rustLines content.data)).1.map segText).flatten ++
        tailOf (rustLines content.data) (segsOf (rustLines content.data)).2) ∧
    (∀ s ∈ (segsOf (rustLines content.data)).1, ∀ c : Char,
      s.pre.getLast? = some c → isWs c = false) ∧
    (∀ s ∈ (segsOf (rustLines content.data)).1.drop 1, s.pre ≠ []) ∧
    (∀ c : Char,
      (tailOf (rustLines content.data)
          (segsOf (rustLines content.data)).2).head? = some c →
        isWs c = false) ∧
    (∀ s ∈ (segsOf (rustLines content.data)).1,
      group_and_sort_imports s.imps ≠ [] ∧
      splitNl (renderAux none (group_and_sort_imports s.imps)) =
        interBlank ((chunkBy (group_and_sort_imports s.imps)).map Prod.snd) ++ [[]] ∧
      ((chunkBy (group_and_sort_imports s.imps)).map
          (fun p => p.2.map (fun l => GroupedImport.mk p.1 l))).flatten =
        group_and_sort_imports s.imps ∧
      (∀ p ∈ chunkBy (group_and_sort_imports s.imps), p.2 ≠ []) ∧
      List.Chain' (fun p q => gToNat p.1 < gToNat q.1)
        (chunkBy (group_and_sort_imports s.imps)) ∧
      (∀ g ∈ group_and_sort_imports s.imps,
        isImportLine g.line = true ∧ g.line ≠ [])) := by
  refine ⟨?_, ?_, ?_, ?_, ?_⟩
  · show String.mk (process_file_content_lines (rustLines content.data)) = _
    rw [process_decomp]
  · intro s hs c hc
    exact segsOfAux_pre_last (rustLines content.data) _ 0 s hs c hc
  · intro s hs
    have hchain := fibAux_chain (rustLines content.data) (rustLines content.data) 0 none
      (by simp) (fun b h => Option.noConfusion h)
    cases hbl : find_import_blocks (rustLines content.data) with
    | nil =>
      have he : (segsOf (rustLines content.data)).1 = [] := by
        unfold segsOf
        rw [hbl, segsOfAux_nil]
      rw [he] at hs
      simp at hs
    | cons b0 bs =>
      have he : (segsOf (rustLines content.data)).1 =
          ⟨trimEnd (joinNl (((rustLines content.data).drop 0).take
              (b0.start_line - 0))), b0.imports⟩ ::
            (segsOfAux (rustLines content.data) (b0.end_line + 1) bs).1 := by
        unfold segsOf
        rw [hbl, segsOfAux_cons]
      rw [he, List.drop_succ_cons, List.drop_zero] at hs
      rw [show fibAux (rustLines content.data) 0 none =
        find_import_blocks (rustLines content.data) from rfl, hbl] at hchain
      exact segsOfAux_pre_sep (rustLines content.data) bs b0 hchain s hs
  · intro c hc
    exact tailOf_head hc
  · intro s hs
    obtain ⟨b, hbmem, himps⟩ := segsOfAux_imps (rustLines content.data) _ 0 s hs
    have hgood : GoodBlock (rustLines content.data) b :=
      fibAux_good (rustLines content.data) (rustLines content.data) 0 none (by simp)
        (fun b1 h => Option.noConfusion h) b hbmem
    have himp : ∀ l ∈ s.imps, isImportLine l = true := by
      rw [himps]
      unfold GoodBlock at hgood
      exact hgood.2.2.2.2
    have hnl : ∀ l ∈ s.imps, nlFree l = true := by
      rw [himps]
      refine fibAux_imports_pred (fun imp => nlFree imp = true)
        (rustLines content.data) 0 none ?_ (fun b1 h => Option.noConfusion h) b hbmem
      intro l hl
      exact nlFree_of_subset (fun ch hch => mem_trim hch) (rustLines_nlFree l hl)
    have hne : s.imps ≠ [] := by
      rw [himps]
      exact goodBlock_imports_ne_nil hgood
    have hgsl : ∀ g ∈ group_and_sort_imports s.imps, isImportLine g.line = true :=
      fun g hg => himp _ (line_mem_of_mem_gasi hg)
    have hgsnl : ∀ g ∈ group_and_sort_imports s.imps, nlFree g.line = true :=
      fun g hg => hnl _ (line_mem_of_mem_gasi hg)
    refine ⟨gasi_ne_nil hne, splitNl_renderAux_none _ hgsnl, chunkBy_flatten _,
      chunkBy_nonempty _, ?_, ?_⟩
    · refine chunkBy_chain _ ((gasi_sorted himp).imp ?_)
      intro a b2 hab
      refine (cmpGroup_ne_gt_iff _ _).mp ?_
      intro hg
      apply hab
      unfold cmpGI
      rw [hg]
    · intro g hg
      refine ⟨hgsl g hg, ?_⟩
      intro he
      have := hgsl g hg
      rw [he, isImportLine_nil] at this
      exact absurd this (by simp)

theorem c2_blank_line_structure_witness :
    process_file_content "import os\nimport sys\nx=1\n" =
      String.mk (((segsOf (rustLines "import os\nimport sys\nx=1\n".data)).1.map
          segText).flatten ++
        tailOf (rustLines "import os\nimport sys\nx=1\n".data)
          (segsOf (rustLines "import os\nimport sys\nx=1\n".data)).2) :=
  (c2_blank_line_structure _).1

end Rsort
